import Mathlib

/-!
# Verification of the NodeGraphQt command / topological-sort core

Shallow embedding of `NodeGraphQt/base/commands.py` and
`NodeGraphQt/base/utils.py` (Baljak/NodeGraphQt).

The port-connection state of a port is its `model.connected_ports`, a
Python `defaultdict(list)` mapping a peer node id to the ordered list of
peer port names.  We embed it as an association list `ConnMap` with
Python `dict` semantics: unique keys, insertion order preserved, setting
an absent key appends it at the end.
-/

set_option autoImplicit false

namespace NG

abbrev NodeId := Nat
abbrev PortId := Nat
abbrev PName := String

/-- `model.connected_ports` : peer node id ↦ ordered list of peer port names. -/
abbrev ConnMap := List (NodeId × List PName)

/-- Python `d.get(k)`: first entry with the given key, if any. -/
def lookupConn : ConnMap → NodeId → Option (List PName)
  | [], _ => none
  | (k', v) :: rest, k => if k' = k then some v else lookupConn rest k

/-- `d.get(k)` defaulted to the empty list. -/
def lookupConnD (m : ConnMap) (k : NodeId) : List PName :=
  (lookupConn m k).getD []

/-- Python `d[k] = v`: replace the value at an existing key in place,
append the key at the end otherwise. -/
def setConn : ConnMap → NodeId → List PName → ConnMap
  | [], k, v => [(k, v)]
  | (k', v') :: rest, k, v =>
    if k' = k then (k, v) :: rest else (k', v') :: setConn rest k v

/-- `defaultdict(list)`: `d[k].append(x)` appends to the list at `k`,
materialising the key with `[]` first when it is absent. -/
def appendConn (m : ConnMap) (k : NodeId) (x : PName) : ConnMap :=
  setConn m k (lookupConnD m k ++ [x])

/-- Python `del d[k]`. -/
def delConn (m : ConnMap) (k : NodeId) : ConnMap :=
  m.filter (fun e => decide (e.1 ≠ k))

/-- The guard `port_names is []` from `PortConnectedCmd.undo` /
`PortDisconnectedCmd.redo`.  In CPython the literal `[]` allocates a fresh
list object, so the identity comparison `is` against it is `False` for
every value of `port_names`; the embedding records that constant. -/
def pyIsFreshEmptyList (_pns : Option (List PName)) : Bool :=
  false

/-- Keys of a connection map, in dict order. -/
def connKeys (m : ConnMap) : List NodeId :=
  m.map Prod.fst

/-- One endpoint of the disconnect transformation, transcribed from
`PortConnectedCmd.undo` (and identically `PortDisconnectedCmd.redo`):

```
port_names = model.connected_ports.get(peer_id)
if port_names is []:
    del model.connected_ports[peer_id]
if port_names and name in port_names:
    port_names.remove(name)
```

`list.remove` deletes the first occurrence and mutates the list held by
the dict in place, so the key keeps its (possibly emptied) list. -/
def disconnectSide (m : ConnMap) (peerId : NodeId) (name : PName) : ConnMap :=
  let port_names := lookupConn m peerId
  let m1 := if pyIsFreshEmptyList port_names then delConn m peerId else m
  match port_names with
  | some l => if l ≠ [] ∧ name ∈ l then setConn m1 peerId (l.erase name) else m1
  | none => m1

/-- One endpoint of the connect transformation, transcribed from
`PortConnectedCmd.redo` (and identically `PortDisconnectedCmd.undo`):
`model.connected_ports[peer_id].append(name)`. -/
def connectSide (m : ConnMap) (peerId : NodeId) (name : PName) : ConnMap :=
  appendConn m peerId name

/-! ## Basic association-list lemmas -/

@[simp] theorem connKeys_nil : connKeys [] = [] := rfl

@[simp] theorem connKeys_cons (k : NodeId) (v : List PName) (m : ConnMap) :
    connKeys ((k, v) :: m) = k :: connKeys m := rfl

theorem setConn_cons_eq (k : NodeId) (v' v : List PName) (m : ConnMap) :
    setConn ((k, v') :: m) k v = (k, v) :: m := by simp [setConn]

theorem setConn_cons_ne (k' k : NodeId) (v' v : List PName) (m : ConnMap)
    (h : k' ≠ k) : setConn ((k', v') :: m) k v = (k', v') :: setConn m k v := by
  simp [setConn, h]

theorem lookupConn_cons_eq (k : NodeId) (v : List PName) (m : ConnMap) :
    lookupConn ((k, v) :: m) k = some v := by simp [lookupConn]

theorem lookupConn_cons_ne (k' k : NodeId) (v : List PName) (m : ConnMap)
    (h : k' ≠ k) : lookupConn ((k', v) :: m) k = lookupConn m k := by
  simp [lookupConn, h]

theorem lookupConn_setConn (m : ConnMap) (k k' : NodeId) (v : List PName) :
    lookupConn (setConn m k v) k' = if k = k' then some v else lookupConn m k' := by
  induction m with
  | nil =>
    by_cases h : k = k' <;> simp [setConn, lookupConn, h]
  | cons e rest ih =>
    obtain ⟨ek, ev⟩ := e
    by_cases hek : ek = k
    · subst hek
      rw [setConn_cons_eq]
      by_cases h : ek = k'
      · subst h; simp [lookupConn_cons_eq]
      · rw [lookupConn_cons_ne _ _ _ _ h, lookupConn_cons_ne _ _ _ _ h, if_neg h]
    · rw [setConn_cons_ne _ _ _ _ _ hek]
      by_cases h : ek = k'
      · subst h
        rw [lookupConn_cons_eq, lookupConn_cons_eq,
          if_neg (fun hh => hek hh.symm)]
      · rw [lookupConn_cons_ne _ _ _ _ h, lookupConn_cons_ne _ _ _ _ h, ih]

theorem connKeys_setConn (m : ConnMap) (k : NodeId) (v : List PName) :
    connKeys (setConn m k v) = if k ∈ connKeys m then connKeys m else connKeys m ++ [k] := by
  induction m with
  | nil => simp [setConn]
  | cons e rest ih =>
    obtain ⟨ek, ev⟩ := e
    by_cases hek : ek = k
    · subst hek
      rw [setConn_cons_eq]
      simp
    · rw [setConn_cons_ne _ _ _ _ _ hek, connKeys_cons, connKeys_cons, ih]
      have hke : ¬ k = ek := fun hh => hek hh.symm
      by_cases hk : k ∈ connKeys rest <;> simp [hk, hke]

theorem connKeys_setConn_of_mem (m : ConnMap) (k : NodeId) (v : List PName)
    (h : k ∈ connKeys m) : connKeys (setConn m k v) = connKeys m := by
  rw [connKeys_setConn, if_pos h]

theorem mem_connKeys_iff_lookup (m : ConnMap) (k : NodeId) :
    k ∈ connKeys m ↔ (lookupConn m k).isSome := by
  induction m with
  | nil => simp [lookupConn]
  | cons e rest ih =>
    obtain ⟨ek, ev⟩ := e
    by_cases hek : ek = k
    · subst hek; simp [lookupConn_cons_eq]
    · rw [connKeys_cons, List.mem_cons, lookupConn_cons_ne _ _ _ _ hek, ← ih]
      constructor
      · rintro (h | h)
        · exact absurd h.symm hek
        · exact h
      · exact Or.inr

/-! ## Claim C3: the pruning branch of the disconnect transformation is dead -/

theorem disconnectSide_connKeys (m : ConnMap) (peerId : NodeId) (name : PName) :
    connKeys (disconnectSide m peerId name) = connKeys m := by
  unfold disconnectSide
  simp only [pyIsFreshEmptyList, if_neg Bool.false_ne_true]
  cases hl : lookupConn m peerId with
  | none => simp
  | some l =>
    by_cases hc : l ≠ [] ∧ name ∈ l
    · have hk : peerId ∈ connKeys m := by
        rw [mem_connKeys_iff_lookup, hl]; rfl
      simp [hc, connKeys_setConn_of_mem _ _ _ hk]
    · simp [hc]

theorem disconnectSide_lookup_self (m : ConnMap) (peerId : NodeId) (name : PName)
    (l : List PName) (hl : lookupConn m peerId = some l) (hne : l ≠ []) (hmem : name ∈ l) :
    lookupConn (disconnectSide m peerId name) peerId = some (l.erase name) := by
  unfold disconnectSide
  simp only [pyIsFreshEmptyList, if_neg Bool.false_ne_true]
  rw [hl]
  simp [hne, hmem, lookupConn_setConn]

/-- C3: in `PortConnectedCmd.undo` / `PortDisconnectedCmd.redo`, the
emptiness test `port_names is []` is identity comparison against a freshly
constructed list, hence false on every input; the `del` branch never runs,
so the key set of the connection map is unchanged by a disconnect, and a
key whose list becomes empty stays in the map bound to `[]`. -/
theorem disconnect_never_prunes (m : ConnMap) (peerId : NodeId) (name : PName) :
    pyIsFreshEmptyList (lookupConn m peerId) = false ∧
    connKeys (disconnectSide m peerId name) = connKeys m ∧
    (lookupConn m peerId = some [name] →
      lookupConn (disconnectSide m peerId name) peerId = some []) := by
  refine ⟨rfl, disconnectSide_connKeys m peerId name, fun h => ?_⟩
  have := disconnectSide_lookup_self m peerId name [name] h (by simp) (by simp)
  simpa using this

/-- Witness for C3 at a concrete map: the key `7`, whose list is emptied by
the disconnect, remains in the map. -/
theorem disconnect_never_prunes_witness :
    lookupConn [(7, ["in"])] 7 = some ["in"] ∧
    lookupConn (disconnectSide [(7, ["in"])] 7 "in") 7 = some [] :=
  ⟨by decide, (disconnect_never_prunes [(7, ["in"])] 7 "in").2.2 (by decide)⟩

/-! ## Port objects and the two port commands

A port object has a static owning-node id and name (`port.node().id`,
`port.name()`), and its own `model.connected_ports` map.  The mutable
state is the family of connection maps, one per port object; distinct
port objects have distinct models. -/

structure PortSpec where
  nodeId : NodeId
  name : PName
deriving DecidableEq

structure PortEnv where
  ports : List PortId
  spec : PortId → PortSpec

/-- State: each port object's `model.connected_ports`. -/
abbrev ConnState := PortId → ConnMap

/-- Replace one port's connection map (mutation of that port's model). -/
def updPort (st : ConnState) (p : PortId) (m : ConnMap) : ConnState :=
  fun q => if q = p then m else st q

/-- One statement of a connect body:
`p_model.connected_ports[peer_node_id].append(peer_name)`. -/
def connectHalf (env : PortEnv) (p peer : PortId) (st : ConnState) : ConnState :=
  updPort st p (connectSide (st p) (env.spec peer).nodeId (env.spec peer).name)

/-- One side of a disconnect body (the `get` / dead `del` / guarded
`remove` block acting on `p`'s model). -/
def disconnectHalf (env : PortEnv) (p peer : PortId) (st : ConnState) : ConnState :=
  updPort st p (disconnectSide (st p) (env.spec peer).nodeId (env.spec peer).name)

/-- `PortConnectedCmd.redo`: append the target's name into the source's
map under the target's node id, then symmetrically for the target. -/
def portConnectedCmdRedo (env : PortEnv) (s t : PortId) (st : ConnState) : ConnState :=
  connectHalf env t s (connectHalf env s t st)

/-- `PortConnectedCmd.undo`: remove the names again (see
`disconnectSide` for the dead pruning branch). -/
def portConnectedCmdUndo (env : PortEnv) (s t : PortId) (st : ConnState) : ConnState :=
  disconnectHalf env t s (disconnectHalf env s t st)

/-- `PortDisconnectedCmd.undo` (textually the same body as
`PortConnectedCmd.redo`). -/
def portDisconnectedCmdUndo (env : PortEnv) (s t : PortId) (st : ConnState) : ConnState :=
  connectHalf env t s (connectHalf env s t st)

/-- `PortDisconnectedCmd.redo` (textually the same body as
`PortConnectedCmd.undo`). -/
def portDisconnectedCmdRedo (env : PortEnv) (s t : PortId) (st : ConnState) : ConnState :=
  disconnectHalf env t s (disconnectHalf env s t st)

/-! ### Error-visible variant of the disconnect body

Python raises `KeyError` on `del d[k]` for an absent key and `ValueError`
on `list.remove` of an absent element; every such operation in the
disconnect body is guarded, which `disconnectSideChecked` makes visible. -/

def disconnectSideChecked (m : ConnMap) (peerId : NodeId) (name : PName) :
    Except String ConnMap := do
  let port_names := lookupConn m peerId
  let m1 ← if pyIsFreshEmptyList port_names then
      match lookupConn m peerId with
      | some _ => pure (delConn m peerId)
      | none => throw "KeyError"
    else pure m
  match port_names with
  | some l =>
    if l ≠ [] ∧ name ∈ l then
      if name ∈ l then pure (setConn m1 peerId (l.erase name))
      else throw "ValueError"
    else pure m1
  | none => pure m1

def portDisconnectedCmdRedoChecked (env : PortEnv) (s t : PortId) (st : ConnState) :
    Except String ConnState := do
  let m1 ← disconnectSideChecked (st s) (env.spec t).nodeId (env.spec t).name
  let st1 := updPort st s m1
  let m2 ← disconnectSideChecked (st1 t) (env.spec s).nodeId (env.spec s).name
  pure (updPort st1 t m2)

theorem disconnectSideChecked_eq (m : ConnMap) (peerId : NodeId) (name : PName) :
    disconnectSideChecked m peerId name = Except.ok (disconnectSide m peerId name) := by
  unfold disconnectSideChecked disconnectSide
  simp only [pyIsFreshEmptyList, if_neg Bool.false_ne_true]
  cases lookupConn m peerId with
  | none => rfl
  | some l =>
    by_cases hc : l ≠ [] ∧ name ∈ l
    · simp [hc, hc.2, bind, Except.bind, pure, Except.pure]
    · simp [hc, bind, Except.bind, pure, Except.pure]

theorem updPort_self (st : ConnState) (p : PortId) : updPort st p (st p) = st := by
  funext q
  unfold updPort
  by_cases h : q = p <;> simp [h]

theorem disconnectSide_of_not_mem (m : ConnMap) (peerId : NodeId) (name : PName)
    (h : name ∉ lookupConnD m peerId) : disconnectSide m peerId name = m := by
  unfold disconnectSide
  simp only [pyIsFreshEmptyList, if_neg Bool.false_ne_true]
  cases hl : lookupConn m peerId with
  | none => rfl
  | some l =>
    have : name ∉ l := by rw [lookupConnD, hl] at h; exact h
    simp [this]

/-- C6: the disconnect transformation (`PortDisconnectedCmd.redo`, and
equally `PortConnectedCmd.undo`) never raises — the checked variant with
Python's `KeyError`/`ValueError` semantics always returns `ok` — and when
both peer names are already absent the whole command is a no-op. -/
theorem disconnect_idempotent_teardown (env : PortEnv) (s t : PortId) (st : ConnState) :
    portDisconnectedCmdRedoChecked env s t st =
      Except.ok (portDisconnectedCmdRedo env s t st) ∧
    ((env.spec t).name ∉ lookupConnD (st s) (env.spec t).nodeId →
     (env.spec s).name ∉ lookupConnD (st t) (env.spec s).nodeId →
     portDisconnectedCmdRedo env s t st = st ∧
     portConnectedCmdUndo env s t st = st) := by
  constructor
  · simp only [portDisconnectedCmdRedoChecked, portDisconnectedCmdRedo, disconnectHalf,
      disconnectSideChecked_eq, bind, Except.bind, pure, Except.pure]
  · intro h1 h2
    have hbody :
        disconnectHalf env t s (disconnectHalf env s t st) = st := by
      unfold disconnectHalf
      rw [disconnectSide_of_not_mem _ _ _ h1, updPort_self,
        disconnectSide_of_not_mem _ _ _ h2, updPort_self]
    exact ⟨hbody, hbody⟩

/-- Witness for C6: a pair whose connection entries are absent on both
sides; the disconnect command leaves the state untouched and raises
nothing. -/
theorem disconnect_idempotent_teardown_witness :
    portDisconnectedCmdRedo ⟨[0, 1], fun p => if p = 0 then ⟨10, "out"⟩ else ⟨20, "in"⟩⟩
      0 1 (fun _ => []) = (fun _ => []) :=
  ((disconnect_idempotent_teardown _ 0 1 _).2 (by decide) (by decide)).1

/-! ## Lookup / count behaviour of the two half-transformations -/

theorem lookupConnD_connectSide (m : ConnMap) (k k' : NodeId) (x : PName) :
    lookupConnD (connectSide m k x) k' =
      if k = k' then lookupConnD m k ++ [x] else lookupConnD m k' := by
  unfold connectSide appendConn
  unfold lookupConnD
  rw [lookupConn_setConn]
  by_cases h : k = k' <;> simp [h, lookupConnD]

theorem lookupConnD_disconnectSide (m : ConnMap) (k k' : NodeId) (x : PName) :
    lookupConnD (disconnectSide m k x) k' =
      if k = k' then (lookupConnD m k).erase x else lookupConnD m k' := by
  unfold disconnectSide
  simp only [pyIsFreshEmptyList, if_neg Bool.false_ne_true]
  cases hl : lookupConn m k with
  | none =>
    by_cases h : k = k'
    · subst h; simp [lookupConnD, hl]
    · simp [h]
  | some l =>
    dsimp only
    by_cases hc : l ≠ [] ∧ x ∈ l
    · rw [if_pos hc]
      unfold lookupConnD
      rw [lookupConn_setConn]
      by_cases h : k = k'
      · subst h; simp [hl]
      · simp [h]
    · rw [if_neg hc]
      push_neg at hc
      by_cases h : k = k'
      · subst h
        rw [if_pos rfl]
        by_cases hnil : l = []
        · subst hnil; simp [lookupConnD, hl]
        · have hx : x ∉ l := hc hnil
          simp [lookupConnD, hl, List.erase_of_not_mem hx]
      · rw [if_neg h]

/-- Multiplicity of `nm` under key `k` in port `r`'s connection map. -/
def cnt (st : ConnState) (r : PortId) (k : NodeId) (nm : PName) : Nat :=
  (lookupConnD (st r) k).count nm

theorem updPort_apply (st : ConnState) (p : PortId) (m : ConnMap) (r : PortId) :
    updPort st p m r = if r = p then m else st r := rfl

theorem cnt_connectHalf (env : PortEnv) (p peer : PortId) (st : ConnState)
    (r : PortId) (k : NodeId) (nm : PName) :
    cnt (connectHalf env p peer st) r k nm =
      cnt st r k nm +
        (if r = p ∧ k = (env.spec peer).nodeId ∧ nm = (env.spec peer).name
          then 1 else 0) := by
  unfold connectHalf cnt
  rw [updPort_apply]
  by_cases hr : r = p
  · subst hr
    rw [if_pos rfl, lookupConnD_connectSide]
    by_cases hk : (env.spec peer).nodeId = k
    · rw [if_pos hk, List.count_append, hk, List.count_singleton']
      by_cases hnm : nm = (env.spec peer).name
      · simp [hnm]
      · simp [hnm, Ne.symm hnm]
    · rw [if_neg hk]
      simp [Ne.symm hk]
  · simp [hr]

theorem cnt_disconnectHalf (env : PortEnv) (p peer : PortId) (st : ConnState)
    (r : PortId) (k : NodeId) (nm : PName) :
    cnt (disconnectHalf env p peer st) r k nm =
      cnt st r k nm -
        (if r = p ∧ k = (env.spec peer).nodeId ∧ nm = (env.spec peer).name
          then 1 else 0) := by
  unfold disconnectHalf cnt
  rw [updPort_apply]
  by_cases hr : r = p
  · subst hr
    rw [if_pos rfl, lookupConnD_disconnectSide]
    by_cases hk : (env.spec peer).nodeId = k
    · rw [if_pos hk, hk]
      by_cases hnm : nm = (env.spec peer).name
      · rw [hnm, List.count_erase_self]
        simp
      · rw [List.count_erase_of_ne hnm]
        simp [hnm]
    · rw [if_neg hk]
      simp [Ne.symm hk]
  · simp [hr]

/-! ## Claim C5: the two command classes compute identical transformations,
but the "pruning" half of the description is false -/

/-- Concrete fixture: port `0` = output `"out"` of node `10`, port `1` =
input `"in"` of node `20`. -/
def envA : PortEnv :=
  ⟨[0, 1], fun p => if p = 0 then ⟨10, "out"⟩ else ⟨20, "in"⟩⟩

/-- Fixture state: ports `0` and `1` connected once each way. -/
def stA : ConnState :=
  fun p => if p = 0 then [(20, ["in"])] else if p = 1 then [(10, ["out"])] else []

/-- Counterexample for C5 as stated: the inverse transformation does not
prune an emptied key — after `PortConnectedCmd.undo` on a singly-connected
pair, the source's map still holds the peer key, bound to `[]`. -/
theorem portCmd_prune_description_false :
    portConnectedCmdUndo envA 0 1 stA 0 = [(20, [])] ∧
    20 ∈ connKeys (portConnectedCmdUndo envA 0 1 stA 0) := by decide

theorem connKeys_disconnectHalf (env : PortEnv) (p peer : PortId) (st : ConnState)
    (r : PortId) :
    connKeys (disconnectHalf env p peer st r) = connKeys (st r) := by
  unfold disconnectHalf
  rw [updPort_apply]
  by_cases hr : r = p
  · rw [if_pos hr, hr, disconnectSide_connKeys]
  · rw [if_neg hr]

/-- C5 (amended): `PortConnectedCmd.redo` = `PortDisconnectedCmd.undo` and
`PortConnectedCmd.undo` = `PortDisconnectedCmd.redo` as transformations of
the two endpoints' connection state; the inverse pair removes (at most)
the first occurrence of each peer name but never removes a key — an
emptied key survives. -/
theorem portCmd_pairs_identical :
    portConnectedCmdRedo = portDisconnectedCmdUndo ∧
    portConnectedCmdUndo = portDisconnectedCmdRedo ∧
    ∀ (env : PortEnv) (s t : PortId) (st : ConnState) (p : PortId),
      connKeys (portConnectedCmdUndo env s t st p) = connKeys (st p) := by
  refine ⟨rfl, rfl, fun env s t st p => ?_⟩
  unfold portConnectedCmdUndo
  rw [connKeys_disconnectHalf, connKeys_disconnectHalf]

/-! ## Claim C10: connecting is not idempotent -/

/-- Multiplicity of `q`'s name under `q`'s node id in `p`'s map. -/
def connCount (env : PortEnv) (st : ConnState) (p q : PortId) : Nat :=
  cnt st p (env.spec q).nodeId (env.spec q).name

theorem connCount_redo (env : PortEnv) (s t : PortId) (st : ConnState) (hst : s ≠ t) :
    connCount env (portConnectedCmdRedo env s t st) s t = connCount env st s t + 1 ∧
    connCount env (portConnectedCmdRedo env s t st) t s = connCount env st t s + 1 := by
  unfold portConnectedCmdRedo connCount
  constructor
  · rw [cnt_connectHalf, cnt_connectHalf]
    simp [hst]
  · rw [cnt_connectHalf, cnt_connectHalf]
    simp [Ne.symm hst]

theorem connCount_undo (env : PortEnv) (s t : PortId) (st : ConnState) (hst : s ≠ t) :
    connCount env (portConnectedCmdUndo env s t st) s t = connCount env st s t - 1 ∧
    connCount env (portConnectedCmdUndo env s t st) t s = connCount env st t s - 1 := by
  unfold portConnectedCmdUndo connCount
  constructor
  · rw [cnt_disconnectHalf, cnt_disconnectHalf]
    simp [hst]
  · rw [cnt_disconnectHalf, cnt_disconnectHalf]
    simp [Ne.symm hst]

/-- C10: `PortConnectedCmd.redo` has no duplicate guard — `n` executions
append the peer's name `n` times on each endpoint; each
`PortConnectedCmd.undo` removes at most one occurrence per side (exactly
one when present); so two redos followed by one undo leave each endpoint
listing the peer once more than initially. -/
theorem portConnected_not_idempotent (env : PortEnv) (s t : PortId)
    (st σ : ConnState) (n : Nat) (hst : s ≠ t) :
    (connCount env ((portConnectedCmdRedo env s t)^[n] st) s t
        = connCount env st s t + n ∧
     connCount env ((portConnectedCmdRedo env s t)^[n] st) t s
        = connCount env st t s + n) ∧
    (connCount env (portConnectedCmdUndo env s t σ) s t
        = connCount env σ s t - 1 ∧
     connCount env (portConnectedCmdUndo env s t σ) t s
        = connCount env σ t s - 1) ∧
    (connCount env (portConnectedCmdUndo env s t
        (portConnectedCmdRedo env s t (portConnectedCmdRedo env s t st))) s t
        = connCount env st s t + 1 ∧
     connCount env (portConnectedCmdUndo env s t
        (portConnectedCmdRedo env s t (portConnectedCmdRedo env s t st))) t s
        = connCount env st t s + 1) := by
  refine ⟨?_, connCount_undo env s t σ hst, ?_⟩
  · induction n with
    | zero => simp
    | succ n ih =>
      rw [Function.iterate_succ_apply']
      have h := connCount_redo env s t ((portConnectedCmdRedo env s t)^[n] st) hst
      omega
  · have h1 := connCount_redo env s t st hst
    have h2 := connCount_redo env s t (portConnectedCmdRedo env s t st) hst
    have h3 := connCount_undo env s t
      (portConnectedCmdRedo env s t (portConnectedCmdRedo env s t st)) hst
    omega

/-- Witness for C10 at the concrete fixture: two connects then one undo on
an initially-connected pair. -/
theorem portConnected_not_idempotent_witness :
    connCount envA ((portConnectedCmdRedo envA 0 1)^[2] stA) 0 1
      = connCount envA stA 0 1 + 2 ∧
    connCount envA (portConnectedCmdUndo envA 0 1
        (portConnectedCmdRedo envA 0 1 (portConnectedCmdRedo envA 0 1 stA))) 0 1
      = connCount envA stA 0 1 + 1 :=
  ⟨(portConnected_not_idempotent envA 0 1 stA stA 2 (by decide)).1.1,
   ((portConnected_not_idempotent envA 0 1 stA stA 2 (by decide)).2.2).1⟩

/-! ## Claim C2: the connection-symmetry invariant INV-1 -/

/-- INV-1 as the spec states it: `Q.name ∈ P.connections[Q.node_id]` iff
`P.name ∈ Q.connections[P.node_id]`, for all ports of the graph. -/
def INV1 (env : PortEnv) (st : ConnState) : Prop :=
  ∀ p ∈ env.ports, ∀ q ∈ env.ports,
    ((env.spec q).name ∈ lookupConnD (st p) (env.spec q).nodeId ↔
     (env.spec p).name ∈ lookupConnD (st q) (env.spec p).nodeId)

/-- Strengthened, multiplicity-aware symmetry: the two sides list each
other the same number of times. -/
def INV1C (env : PortEnv) (st : ConnState) : Prop :=
  ∀ p ∈ env.ports, ∀ q ∈ env.ports, connCount env st p q = connCount env st q p

/-- Distinct ports of the graph carry distinct (node id, name) pairs. -/
def SpecInj (env : PortEnv) : Prop :=
  ∀ p ∈ env.ports, ∀ q ∈ env.ports, env.spec p = env.spec q → p = q

instance (env : PortEnv) (st : ConnState) : Decidable (INV1 env st) := by
  unfold INV1; infer_instance

instance (env : PortEnv) (st : ConnState) : Decidable (INV1C env st) := by
  unfold INV1C; infer_instance

instance (env : PortEnv) : Decidable (SpecInj env) := by
  unfold SpecInj; infer_instance

/-- State in which port `0` lists its peer twice while port `1` lists its
peer once: INV-1 (as a membership bi-implication) holds. -/
def stB : ConnState :=
  fun p => if p = 0 then [(20, ["in", "in"])] else if p = 1 then [(10, ["out"])] else []

/-- Counterexample for C2 as stated: from a state satisfying INV-1,
`PortDisconnectedCmd.redo` (which removes one occurrence per side) can
reach a state violating INV-1, because membership ignores multiplicity. -/
theorem inv1_membership_not_preserved :
    INV1 envA stB ∧ ¬ INV1 envA (portDisconnectedCmdRedo envA 0 1 stB) := by
  decide

theorem PortSpec.eq_of_fields {a b : PortSpec}
    (h1 : a.nodeId = b.nodeId) (h2 : a.name = b.name) : a = b := by
  cases a; cases b; simp_all

theorem spec_fields_iff (env : PortEnv) (hinj : SpecInj env) {q t : PortId}
    (hq : q ∈ env.ports) (ht : t ∈ env.ports) :
    ((env.spec q).nodeId = (env.spec t).nodeId ∧
     (env.spec q).name = (env.spec t).name) ↔ q = t := by
  constructor
  · rintro ⟨h1, h2⟩
    exact hinj q hq t ht (PortSpec.eq_of_fields h1 h2)
  · rintro rfl
    exact ⟨rfl, rfl⟩

theorem connCount_redo_general (env : PortEnv) (hinj : SpecInj env)
    {s t p q : PortId} (hs : s ∈ env.ports) (ht : t ∈ env.ports)
    (_hp : p ∈ env.ports) (hq : q ∈ env.ports) (st : ConnState) :
    connCount env (portConnectedCmdRedo env s t st) p q =
      connCount env st p q + (if p = s ∧ q = t then 1 else 0) +
        (if p = t ∧ q = s then 1 else 0) := by
  unfold portConnectedCmdRedo connCount
  rw [cnt_connectHalf, cnt_connectHalf]
  simp only [spec_fields_iff env hinj hq ht, spec_fields_iff env hinj hq hs]

theorem connCount_undo_general (env : PortEnv) (hinj : SpecInj env)
    {s t p q : PortId} (hs : s ∈ env.ports) (ht : t ∈ env.ports)
    (_hp : p ∈ env.ports) (hq : q ∈ env.ports) (st : ConnState) :
    connCount env (portConnectedCmdUndo env s t st) p q =
      connCount env st p q - (if p = s ∧ q = t then 1 else 0) -
        (if p = t ∧ q = s then 1 else 0) := by
  unfold portConnectedCmdUndo connCount
  rw [cnt_disconnectHalf, cnt_disconnectHalf]
  simp only [spec_fields_iff env hinj hq ht, spec_fields_iff env hinj hq hs]

theorem INV1C_redo (env : PortEnv) (hinj : SpecInj env) {s t : PortId}
    (hs : s ∈ env.ports) (ht : t ∈ env.ports) {st : ConnState}
    (hinv : INV1C env st) : INV1C env (portConnectedCmdRedo env s t st) := by
  intro p hp q hq
  have hpq := hinv p hp q hq
  rw [connCount_redo_general env hinj hs ht hp hq st,
    connCount_redo_general env hinj hs ht hq hp st]
  have e1 : (q = s ∧ p = t) ↔ (p = t ∧ q = s) := and_comm
  have e2 : (q = t ∧ p = s) ↔ (p = s ∧ q = t) := and_comm
  simp only [e1, e2]
  omega

theorem INV1C_undo (env : PortEnv) (hinj : SpecInj env) {s t : PortId}
    (hs : s ∈ env.ports) (ht : t ∈ env.ports) {st : ConnState}
    (hinv : INV1C env st) : INV1C env (portConnectedCmdUndo env s t st) := by
  intro p hp q hq
  have hpq := hinv p hp q hq
  rw [connCount_undo_general env hinj hs ht hp hq st,
    connCount_undo_general env hinj hs ht hq hp st]
  have e1 : (q = s ∧ p = t) ↔ (p = t ∧ q = s) := and_comm
  have e2 : (q = t ∧ p = s) ↔ (p = s ∧ q = t) := and_comm
  simp only [e1, e2]
  omega

theorem INV1_of_INV1C (env : PortEnv) {st : ConnState} (h : INV1C env st) :
    INV1 env st := by
  intro p hp q hq
  have hc := h p hp q hq
  unfold connCount cnt at hc
  rw [← List.count_pos_iff, ← List.count_pos_iff, hc]

/-- C2 (amended): the membership form of INV-1 is preserved by the four
port-command transformations only in its multiplicity-respecting
strengthening: if distinct ports have distinct (node id, name) keys and
the state is count-symmetric, then each of `PortConnectedCmd.redo/undo`
and `PortDisconnectedCmd.redo/undo` preserves count-symmetry, which in
turn implies INV-1. -/
theorem inv1_count_symmetry_preserved (env : PortEnv) (s t : PortId)
    (st : ConnState) (hinj : SpecInj env) (hs : s ∈ env.ports)
    (ht : t ∈ env.ports) (hinv : INV1C env st) :
    (INV1C env (portConnectedCmdRedo env s t st) ∧
     INV1C env (portConnectedCmdUndo env s t st) ∧
     INV1C env (portDisconnectedCmdRedo env s t st) ∧
     INV1C env (portDisconnectedCmdUndo env s t st)) ∧
    INV1 env st := by
  have hdr : portDisconnectedCmdRedo = portConnectedCmdUndo := rfl
  have hdu : portDisconnectedCmdUndo = portConnectedCmdRedo := rfl
  rw [hdr, hdu]
  exact ⟨⟨INV1C_redo env hinj hs ht hinv, INV1C_undo env hinj hs ht hinv,
    INV1C_undo env hinj hs ht hinv, INV1C_redo env hinj hs ht hinv⟩,
    INV1_of_INV1C env hinv⟩

/-- Witness for C2's amended theorem at the concrete symmetric fixture. -/
theorem inv1_count_symmetry_preserved_witness :
    (INV1C envA (portConnectedCmdRedo envA 0 1 stA) ∧
     INV1C envA (portConnectedCmdUndo envA 0 1 stA) ∧
     INV1C envA (portDisconnectedCmdRedo envA 0 1 stA) ∧
     INV1C envA (portDisconnectedCmdUndo envA 0 1 stA)) ∧
    INV1 envA stA :=
  inv1_count_symmetry_preserved envA 0 1 stA (by decide) (by decide)
    (by decide) (by decide)

/-! ## Topological sort (`NodeGraphQt/base/utils.py`)

The static node graph as seen by `topological_sort`.  `outsRaw n` —
modelled from the spec: the nodes reachable through `n`'s output ports'
connections, in port/connection iteration order (the `Port` class is
outside the embedded sources); repeats allowed.  `hasIn` / `hasOut` —
modelled from the spec: the view-level "some connected pipe on an
input/output port" tests used by `_has_input_node` / `_has_output_node`.
`univ` lists the finitely many nodes of the graph. -/
structure TopoEnv where
  univ : List NodeId
  outsRaw : NodeId → List NodeId
  hasIn : NodeId → Bool
  hasOut : NodeId → Bool

/-- Python-dict keyed insertion then `list(d.values())`: keeps the first
occurrence of each node id. -/
def pyDictDedup (seen : List NodeId) : List NodeId → List NodeId
  | [] => []
  | x :: xs =>
    if x ∈ seen then pyDictDedup seen xs else x :: pyDictDedup (x :: seen) xs

/-- `get_output_nodes`: the distinct output-connected nodes of `n`, in
first-seen order. -/
def get_output_nodes (env : TopoEnv) (n : NodeId) : List NodeId :=
  pyDictDedup [] (env.outsRaw n)

/-- `_has_input_node`: some input port has a connected pipe. -/
def _has_input_node (env : TopoEnv) (n : NodeId) : Bool := env.hasIn n

/-- `_has_output_node`: some output port has a connected pipe. -/
def _has_output_node (env : TopoEnv) (n : NodeId) : Bool := env.hasOut n

/-- The `graph` dict built by `_build_graph`: node ↦ output nodes. -/
abbrev GraphAL := List (NodeId × List NodeId)

def lookupG : GraphAL → NodeId → Option (List NodeId)
  | [], _ => none
  | (k', v) :: rest, k => if k' = k then some v else lookupG rest k

def setG : GraphAL → NodeId → List NodeId → GraphAL
  | [], k, v => [(k, v)]
  | (k', v') :: rest, k, v =>
    if k' = k then (k, v) :: rest else (k', v') :: setG rest k v

def keysG (g : GraphAL) : List NodeId := g.map Prod.fst

/-- `graph[n]`, defaulted (`n` is always a key on the paths exercised by
`topological_sort`, where the built graph is key-closed). -/
def adjG (g : GraphAL) (n : NodeId) : List NodeId := (lookupG g n).getD []

/-- One `for n in output_nodes` step of `_build_graph`'s inner loop:
`if n not in graph: graph[n] = get_output_nodes(n); _output_nodes.extend(...)`. -/
def buildStep (env : TopoEnv) (acc : GraphAL × List NodeId) (n : NodeId) :
    GraphAL × List NodeId :=
  if n ∈ keysG acc.1 then acc
  else (setG acc.1 n (get_output_nodes env n), acc.2 ++ get_output_nodes env n)

/-- Body of one `while output_nodes` iteration of `_build_graph`. -/
def buildPass (env : TopoEnv) (g : GraphAL) (frontier : List NodeId) :
    GraphAL × List NodeId :=
  frontier.foldl (buildStep env) (g, [])

/-- The `while output_nodes:` loop.  The Python loop is unbounded; the
embedding carries fuel, and `buildLoop_reaches_empty` below shows that
`env.univ.length + 1` steps always reach an empty frontier when the
graph's connections stay inside `env.univ`, so the fuelled function
computes the loop's result. -/
def buildLoop (env : TopoEnv) : Nat → GraphAL → List NodeId → GraphAL
  | 0, g, _ => g
  | fuel + 1, g, frontier =>
    if frontier = [] then g
    else
      let gf := buildPass env g frontier
      buildLoop env fuel gf.1 gf.2

/-- `_build_graph(start_nodes)`. -/
def _build_graph (env : TopoEnv) (start_nodes : List NodeId) : GraphAL :=
  start_nodes.foldl
    (fun g node =>
      buildLoop env (env.univ.length + 1)
        (setG g node (get_output_nodes env node)) (get_output_nodes env node))
    []

/-- Nodes of `l` not yet visited — the well-founded measure of the DFS. -/
def remCount (l visit : List NodeId) : Nat :=
  (l.filter (fun k => decide (k ∉ visit))).length

theorem remCount_le_of_subset (l : List NodeId) {a b : List NodeId}
    (h : ∀ x ∈ a, x ∈ b) : remCount l b ≤ remCount l a := by
  unfold remCount
  exact (List.monotone_filter_right l
    (fun x hx => by
      simp only [decide_eq_true_eq] at *
      exact fun hxa => hx (h x hxa))).length_le

theorem remCount_cons (x : NodeId) (xs visit : List NodeId) :
    remCount (x :: xs) visit
      = remCount xs visit + (if x ∉ visit then 1 else 0) := by
  unfold remCount
  rw [List.filter_cons]
  by_cases h : x ∉ visit <;> simp [h]

theorem remCount_cons_lt (l : List NodeId) {v : NodeId} {visit : List NodeId}
    (hv : v ∈ l) (hnv : v ∉ visit) : remCount l (v :: visit) < remCount l visit := by
  have hle : ∀ xs : List NodeId, remCount xs (v :: visit) ≤ remCount xs visit :=
    fun xs => remCount_le_of_subset xs (fun y hy => List.mem_cons_of_mem v hy)
  induction l with
  | nil => simp at hv
  | cons x xs ih =>
    rw [remCount_cons, remCount_cons]
    rcases List.mem_cons.mp hv with hx | hx
    · subst hx
      have h1 : ¬ (v ∉ (v :: visit)) := fun h => h (List.mem_cons_self v visit)
      rw [if_neg h1, if_pos hnv]
      have := hle xs
      omega
    · have h2 := ih hx
      have h3 : (if x ∉ (v :: visit) then (1 : Nat) else 0)
          ≤ (if x ∉ visit then 1 else 0) := by
        by_cases h : x ∉ (v :: visit)
        · have hxv : x ∉ visit := fun hm => h (List.mem_cons_of_mem v hm)
          simp [h, hxv]
        · rw [if_neg h]
          exact Nat.zero_le _
      omega

/-- The DFS of `topological_sort`, fused: the outer
`for start_node in start_nodes` loop and the inner
`for end_node in graph[start_node]` loop of `dfs` have the same body —
test the `visit` flag, mark on discovery, recurse into the adjacency,
then append the node to `sorted_nodes` (postorder) — so one recursive
function over the worklist `ns` covers both.  `visit` is the set of nodes
whose flag is `True`; `order` is `sorted_nodes`.  The `v ∈ keysG g` guard
mirrors the `visit[...]` dict lookup, total on the key-closed graphs
`_build_graph` produces.  The result carries the fact that `visit` only
grows, which bounds the recursion. -/
def dfsVisitList (g : GraphAL) :
    (visit : List NodeId) → (order ns : List NodeId) →
      {p : List NodeId × List NodeId // ∀ x ∈ visit, x ∈ p.1}
  | visit, order, [] => ⟨(visit, order), fun _ hx => hx⟩
  | visit, order, v :: vs =>
    if h : v ∈ keysG g ∧ v ∉ visit then
      let r1 := dfsVisitList g (v :: visit) order (adjG g v)
      let r2 := dfsVisitList g r1.1.1 (r1.1.2 ++ [v]) vs
      ⟨r2.1, fun x hx => r2.2 x (r1.2 x (List.mem_cons_of_mem v hx))⟩
    else
      let r := dfsVisitList g visit order vs
      ⟨r.1, r.2⟩
  termination_by visit _ ns => (remCount (keysG g) visit, ns.length)
  decreasing_by
  · exact Prod.Lex.left _ _ (remCount_cons_lt (keysG g) h.1 h.2)
  · exact Prod.Lex.left _ _
      (Nat.lt_of_le_of_lt (remCount_le_of_subset (keysG g) r1.2)
        (remCount_cons_lt (keysG g) h.1 h.2))
  · exact Prod.Lex.right _ (Nat.lt_succ_self _)

/-- The start-node normalisation at the top of `topological_sort`:
`if not start_nodes: start_nodes = [n for n in all_nodes if not
_has_input_node(n)]`. -/
def startSet (env : TopoEnv) (start_nodes all_nodes : List NodeId) : List NodeId :=
  if start_nodes.isEmpty
    then all_nodes.filter (fun n => !_has_input_node env n)
    else start_nodes

/-- `topological_sort(start_nodes, all_nodes)`. -/
def topological_sort (env : TopoEnv) (start_nodes all_nodes : List NodeId) :
    List NodeId :=
  if (startSet env start_nodes all_nodes).isEmpty then []
  else if ((startSet env start_nodes all_nodes).filter
      (fun n => _has_output_node env n)).isEmpty then
    startSet env start_nodes all_nodes
  else if (_build_graph env (startSet env start_nodes all_nodes)).isEmpty then []
  else ((dfsVisitList (_build_graph env (startSet env start_nodes all_nodes))
      [] [] (startSet env start_nodes all_nodes)).1.2).reverse

/-! ## Claim C8: degenerate inputs -/

/-- C8: `topological_sort([], [])` is empty; an empty start set whose
candidate nodes all have connected inputs gives an empty result; a
non-empty start set none of whose nodes has a connected output is
returned verbatim; a single isolated node given as its own start set
yields itself. -/
theorem topological_sort_degenerate (env : TopoEnv) (start all : List NodeId)
    (n : NodeId) :
    topological_sort env [] [] = [] ∧
    ((∀ a ∈ all, env.hasIn a = true) → topological_sort env [] all = []) ∧
    (start ≠ [] → (∀ s ∈ start, env.hasOut s = false) →
      topological_sort env start all = start) ∧
    (env.hasOut n = false → topological_sort env [n] all = [n]) := by
  have h3 : ∀ st : List NodeId, st ≠ [] → (∀ s ∈ st, env.hasOut s = false) →
      topological_sort env st all = st := by
    intro st hne hout
    unfold topological_sort startSet
    have hie : st.isEmpty = false := by
      cases st with
      | nil => exact absurd rfl hne
      | cons a as => rfl
    rw [hie]
    simp only [Bool.false_eq_true, if_neg, if_false]
    have hf : st.filter (fun x => _has_output_node env x) = [] := by
      rw [List.filter_eq_nil_iff]
      intro a ha
      unfold _has_output_node
      rw [hout a ha]
      simp
    rw [hie, hf]
    simp
  refine ⟨?_, ?_, h3 start, fun hn => h3 [n] (by simp) ?_⟩
  · rfl
  · intro hall
    unfold topological_sort startSet
    have hf : all.filter (fun x => !_has_input_node env x) = [] := by
      rw [List.filter_eq_nil_iff]
      intro a ha
      unfold _has_input_node
      rw [hall a ha]
      simp
    simp [hf]
  · intro s hs
    rw [List.mem_singleton.mp hs]
    exact hn

/-- Witness for C8 at a concrete two-node graph: node 5 is isolated;
node 6 feeds node 5. -/
theorem topological_sort_degenerate_witness :
    topological_sort
      ⟨[5, 6], (fun m => if m = 6 then [5] else []),
        (fun m => decide (m = 5)), (fun m => decide (m = 6))⟩ [5] [] = [5] :=
  ((topological_sort_degenerate _ [5] [] 5).2.2.1 (by decide) (by decide))

/-! ## Claim C9: the DFS terminates, cycles included

`dfsFuel` is the same recursion metered by a step count: `none` means the
budget ran out.  Termination of the Python recursion is the statement
that some finite budget suffices, for every graph — cyclic ones too. -/

def dfsFuel (g : GraphAL) : Nat → List NodeId → List NodeId → List NodeId →
    Option (List NodeId × List NodeId)
  | 0, _, _, _ => none
  | _ + 1, visit, order, [] => some (visit, order)
  | fuel + 1, visit, order, v :: vs =>
    if v ∈ keysG g ∧ v ∉ visit then
      match dfsFuel g fuel (v :: visit) order (adjG g v) with
      | none => none
      | some (v1, o1) => dfsFuel g fuel v1 (o1 ++ [v]) vs
    else dfsFuel g fuel visit order vs

theorem dfsFuel_mono (g : GraphAL) :
    ∀ (F : Nat) (visit order ns : List NodeId) (r : List NodeId × List NodeId),
      dfsFuel g F visit order ns = some r →
      dfsFuel g (F + 1) visit order ns = some r := by
  intro F
  induction F with
  | zero =>
    intro visit order ns r h
    simp [dfsFuel] at h
  | succ F ih =>
    intro visit order ns r h
    cases ns with
    | nil => simpa [dfsFuel] using h
    | cons v vs =>
      rw [show F + 1 + 1 = (F + 1) + 1 by rfl]
      unfold dfsFuel at h ⊢
      by_cases hg : v ∈ keysG g ∧ v ∉ visit
      · rw [if_pos hg] at h ⊢
        cases hm : dfsFuel g F (v :: visit) order (adjG g v) with
        | none => rw [hm] at h; simp at h
        | some r1 =>
          obtain ⟨v1, o1⟩ := r1
          rw [hm] at h
          rw [ih _ _ _ _ hm]
          exact ih _ _ _ _ h
      · rw [if_neg hg] at h ⊢
        exact ih _ _ _ _ h

theorem dfsFuel_mono_le (g : GraphAL) {F F' : Nat} (hle : F ≤ F')
    (visit order ns : List NodeId) (r : List NodeId × List NodeId)
    (h : dfsFuel g F visit order ns = some r) :
    dfsFuel g F' visit order ns = some r := by
  induction hle with
  | refl => exact h
  | step _ ih => exact dfsFuel_mono g _ _ _ _ _ ih

theorem dfsFuel_of_dfsVisitList (g : GraphAL) :
    ∀ visit order ns,
      ∃ F, dfsFuel g F visit order ns = some (dfsVisitList g visit order ns).1 := by
  intro visit order ns
  induction visit, order, ns using dfsVisitList.induct g with
  | case1 visit order =>
    exact ⟨1, by simp [dfsFuel, dfsVisitList]⟩
  | case2 visit order v vs h r1 ih1 r2 ih2 =>
    obtain ⟨F1, hF1⟩ := ih1
    obtain ⟨F2, hF2⟩ := ih2
    refine ⟨max F1 F2 + 1, ?_⟩
    rw [dfsVisitList]
    simp only [dif_pos h]
    unfold dfsFuel
    rw [if_pos h,
      dfsFuel_mono_le g (Nat.le_max_left F1 F2) _ _ _ _ hF1]
    exact dfsFuel_mono_le g (Nat.le_max_right F1 F2) _ _ _ _ hF2
  | case3 visit order v vs h ih =>
    obtain ⟨F, hF⟩ := ih
    refine ⟨F + 1, ?_⟩
    rw [dfsVisitList]
    simp only [dif_neg h]
    unfold dfsFuel
    rw [if_neg h]
    exact hF

theorem dfsVisitList_eq_of_dfsFuel (g : GraphAL) (F : Nat)
    (visit order ns : List NodeId) (r : List NodeId × List NodeId)
    (h : dfsFuel g F visit order ns = some r) :
    (dfsVisitList g visit order ns).1 = r := by
  obtain ⟨F0, hF0⟩ := dfsFuel_of_dfsVisitList g visit order ns
  have h1 := dfsFuel_mono_le g (Nat.le_max_left F F0) _ _ _ _ h
  have h2 := dfsFuel_mono_le g (Nat.le_max_right F F0) _ _ _ _ hF0
  rw [h1] at h2
  exact (Option.some_injective _ h2).symm

/-- A two-cycle: nodes 0 and 1 feed each other. -/
def envCyc : TopoEnv :=
  ⟨[0, 1], (fun m => if m = 0 then [1] else if m = 1 then [0] else []),
    (fun _ => true), (fun _ => true)⟩

/-- C9: the depth-first traversal terminates on every finite graph —
some finite step budget returns `some`, agreeing with the traversal's
value — because marking on first discovery stops re-entry; in particular
`topological_sort` on a two-node cycle returns (a non-topological but
finite) `[0, 1]`. -/
theorem dfs_always_terminates (g : GraphAL) (visit order ns : List NodeId) :
    (∃ F, dfsFuel g F visit order ns
        = some (dfsVisitList g visit order ns).1) ∧
    topological_sort envCyc [0] [] = [0, 1] := by
  refine ⟨dfsFuel_of_dfsVisitList g visit order ns, ?_⟩
  have hbuild : _build_graph envCyc [0] = [(0, [1]), (1, [0])] := by decide
  have hdfs : (dfsVisitList [(0, [1]), (1, [0])] [] [] [0]).1
      = ([1, 0], [1, 0]) :=
    dfsVisitList_eq_of_dfsFuel _ 5 _ _ _ _ (by decide)
  have hstart : startSet envCyc [0] [] = [0] := rfl
  unfold topological_sort
  simp only [hstart, hbuild, hdfs]
  decide

/-! ## Claim C4: topological order correctness on DAGs

Association-list lemmas for the built graph, mirroring those for
connection maps. -/

@[simp] theorem keysG_nil : keysG [] = [] := rfl

@[simp] theorem keysG_cons (k : NodeId) (v : List NodeId) (g : GraphAL) :
    keysG ((k, v) :: g) = k :: keysG g := rfl

theorem setG_cons_eq (k : NodeId) (v' v : List NodeId) (g : GraphAL) :
    setG ((k, v') :: g) k v = (k, v) :: g := by simp [setG]

theorem setG_cons_ne (k' k : NodeId) (v' v : List NodeId) (g : GraphAL)
    (h : k' ≠ k) : setG ((k', v') :: g) k v = (k', v') :: setG g k v := by
  simp [setG, h]

theorem lookupG_cons_eq (k : NodeId) (v : List NodeId) (g : GraphAL) :
    lookupG ((k, v) :: g) k = some v := by simp [lookupG]

theorem lookupG_cons_ne (k' k : NodeId) (v : List NodeId) (g : GraphAL)
    (h : k' ≠ k) : lookupG ((k', v) :: g) k = lookupG g k := by
  simp [lookupG, h]

theorem lookupG_setG (g : GraphAL) (k k' : NodeId) (v : List NodeId) :
    lookupG (setG g k v) k' = if k = k' then some v else lookupG g k' := by
  induction g with
  | nil =>
    by_cases h : k = k' <;> simp [setG, lookupG, h]
  | cons e rest ih =>
    obtain ⟨ek, ev⟩ := e
    by_cases hek : ek = k
    · subst hek
      rw [setG_cons_eq]
      by_cases h : ek = k'
      · subst h; simp [lookupG_cons_eq]
      · rw [lookupG_cons_ne _ _ _ _ h, lookupG_cons_ne _ _ _ _ h, if_neg h]
    · rw [setG_cons_ne _ _ _ _ _ hek]
      by_cases h : ek = k'
      · subst h
        rw [lookupG_cons_eq, lookupG_cons_eq, if_neg (fun hh => hek hh.symm)]
      · rw [lookupG_cons_ne _ _ _ _ h, lookupG_cons_ne _ _ _ _ h, ih]

theorem keysG_setG (g : GraphAL) (k : NodeId) (v : List NodeId) :
    keysG (setG g k v) = if k ∈ keysG g then keysG g else keysG g ++ [k] := by
  induction g with
  | nil => simp [setG]
  | cons e rest ih =>
    obtain ⟨ek, ev⟩ := e
    by_cases hek : ek = k
    · subst hek
      rw [setG_cons_eq]
      simp
    · rw [setG_cons_ne _ _ _ _ _ hek, keysG_cons, keysG_cons, ih]
      have hke : ¬ k = ek := fun hh => hek hh.symm
      by_cases hk : k ∈ keysG rest <;> simp [hk, hke]

theorem mem_keysG_setG (g : GraphAL) (k k' : NodeId) (v : List NodeId)
    (h : k' ∈ keysG g) : k' ∈ keysG (setG g k v) := by
  rw [keysG_setG]
  by_cases hk : k ∈ keysG g <;> simp [hk, h]

theorem self_mem_keysG_setG (g : GraphAL) (k : NodeId) (v : List NodeId) :
    k ∈ keysG (setG g k v) := by
  rw [keysG_setG]
  by_cases hk : k ∈ keysG g <;> simp [hk]

theorem mem_keysG_iff_lookupG (g : GraphAL) (k : NodeId) :
    k ∈ keysG g ↔ (lookupG g k).isSome := by
  induction g with
  | nil => simp [lookupG]
  | cons e rest ih =>
    obtain ⟨ek, ev⟩ := e
    by_cases hek : ek = k
    · subst hek; simp [lookupG_cons_eq]
    · rw [keysG_cons, List.mem_cons, lookupG_cons_ne _ _ _ _ hek, ← ih]
      constructor
      · rintro (h | h)
        · exact absurd h.symm hek
        · exact h
      · exact Or.inr

/-- The edge relation of the built graph. -/
def EdgeG (g : GraphAL) (u v : NodeId) : Prop := v ∈ adjG g u

instance (g : GraphAL) (u v : NodeId) : Decidable (EdgeG g u v) := by
  unfold EdgeG; infer_instance

theorem EdgeG_mem_keysG {g : GraphAL} {u v : NodeId} (h : EdgeG g u v) :
    u ∈ keysG g := by
  unfold EdgeG adjG at h
  rw [mem_keysG_iff_lookupG]
  cases hl : lookupG g u with
  | none => rw [hl] at h; simp at h
  | some l => rfl

theorem EdgeG_iff_lookupG {g : GraphAL} {u v : NodeId} :
    EdgeG g u v ↔ ∃ vs, lookupG g u = some vs ∧ v ∈ vs := by
  unfold EdgeG adjG
  cases hl : lookupG g u with
  | none => simp
  | some l => simp

/-- All values stored in the graph dict are `get_output_nodes` results. -/
def GraphVals (env : TopoEnv) (g : GraphAL) : Prop :=
  ∀ u vs, lookupG g u = some vs → vs = get_output_nodes env u

/-- Every listed target is itself a key (a key-closed graph). -/
def ClosedG (g : GraphAL) : Prop :=
  ∀ u v, EdgeG g u v → v ∈ keysG g

/-- Pending closure: every listed target is a key or still on the frontier. -/
def PendClosed (g : GraphAL) (f : List NodeId) : Prop :=
  ∀ u vs, lookupG g u = some vs → ∀ v ∈ vs, v ∈ keysG g ∨ v ∈ f

theorem ClosedG_of_pendClosed {g : GraphAL} (h : PendClosed g []) : ClosedG g := by
  intro u v he
  obtain ⟨vs, hvs, hmem⟩ := EdgeG_iff_lookupG.mp he
  rcases h u vs hvs v hmem with hk | hf
  · exact hk
  · simp at hf

theorem mem_pyDictDedup {x : NodeId} :
    ∀ {seen l : List NodeId}, x ∈ pyDictDedup seen l → x ∈ l := by
  intro seen l
  induction l generalizing seen with
  | nil => intro h; simp [pyDictDedup] at h
  | cons a as ih =>
    intro h
    unfold pyDictDedup at h
    by_cases ha : a ∈ seen
    · rw [if_pos ha] at h
      exact List.mem_cons_of_mem a (ih h)
    · rw [if_neg ha] at h
      rcases List.mem_cons.mp h with h | h
      · exact h ▸ List.mem_cons_self a as
      · exact List.mem_cons_of_mem a (ih h)

theorem mem_get_output_nodes {env : TopoEnv} {n v : NodeId}
    (h : v ∈ get_output_nodes env n) : v ∈ env.outsRaw n :=
  mem_pyDictDedup h

/-! ### Invariants of `_build_graph` -/

theorem buildStep_keys_mono (env : TopoEnv) (acc : GraphAL × List NodeId)
    (n k : NodeId) (h : k ∈ keysG acc.1) : k ∈ keysG (buildStep env acc n).1 := by
  unfold buildStep
  by_cases hn : n ∈ keysG acc.1
  · rw [if_pos hn]; exact h
  · rw [if_neg hn]; exact mem_keysG_setG _ _ _ _ h

theorem buildStep_self_key (env : TopoEnv) (acc : GraphAL × List NodeId)
    (n : NodeId) : n ∈ keysG (buildStep env acc n).1 := by
  unfold buildStep
  by_cases hn : n ∈ keysG acc.1
  · rw [if_pos hn]; exact hn
  · rw [if_neg hn]; exact self_mem_keysG_setG _ _ _

theorem foldl_buildStep_keys_mono (env : TopoEnv) (f : List NodeId) :
    ∀ acc k, k ∈ keysG acc.1 → k ∈ keysG (f.foldl (buildStep env) acc).1 := by
  induction f with
  | nil => intro acc k h; exact h
  | cons n rest ih =>
    intro acc k h
    rw [List.foldl_cons]
    exact ih _ _ (buildStep_keys_mono env acc n k h)

theorem foldl_buildStep_frontier_keys (env : TopoEnv) (f : List NodeId) :
    ∀ acc, ∀ n ∈ f, n ∈ keysG (f.foldl (buildStep env) acc).1 := by
  induction f with
  | nil => intro acc n h; simp at h
  | cons m rest ih =>
    intro acc n h
    rw [List.foldl_cons]
    rcases List.mem_cons.mp h with h | h
    · subst h
      exact foldl_buildStep_keys_mono env rest _ n (buildStep_self_key env acc n)
    · exact ih _ n h

theorem buildStep_vals (env : TopoEnv) (acc : GraphAL × List NodeId) (n : NodeId)
    (h : GraphVals env acc.1) : GraphVals env (buildStep env acc n).1 := by
  unfold buildStep
  by_cases hn : n ∈ keysG acc.1
  · rw [if_pos hn]; exact h
  · rw [if_neg hn]
    intro u vs hvs
    rw [lookupG_setG] at hvs
    by_cases hu : n = u
    · rw [if_pos hu] at hvs
      rw [← hu]
      exact (Option.some_injective _ hvs).symm
    · rw [if_neg hu] at hvs
      exact h u vs hvs

theorem foldl_buildStep_vals (env : TopoEnv) (f : List NodeId) :
    ∀ acc, GraphVals env acc.1 → GraphVals env (f.foldl (buildStep env) acc).1 := by
  induction f with
  | nil => intro acc h; exact h
  | cons n rest ih =>
    intro acc h
    rw [List.foldl_cons]
    exact ih _ (buildStep_vals env acc n h)

theorem foldl_buildStep_pend (env : TopoEnv) (f : List NodeId) :
    ∀ acc : GraphAL × List NodeId,
      (∀ u vs, lookupG acc.1 u = some vs →
        ∀ v ∈ vs, v ∈ keysG acc.1 ∨ v ∈ f ∨ v ∈ acc.2) →
      PendClosed (f.foldl (buildStep env) acc).1 (f.foldl (buildStep env) acc).2 := by
  induction f with
  | nil =>
    intro acc h u vs hvs v hv
    rcases h u vs hvs v hv with hk | hf | h2
    · exact Or.inl hk
    · simp at hf
    · exact Or.inr h2
  | cons n rest ih =>
    intro acc h
    rw [List.foldl_cons]
    apply ih
    intro u vs hvs v hv
    unfold buildStep at hvs ⊢
    by_cases hn : n ∈ keysG acc.1
    · rw [if_pos hn] at hvs ⊢
      rcases h u vs hvs v hv with hk | hf | h2
      · exact Or.inl hk
      · rcases List.mem_cons.mp hf with hvn | hvr
        · exact Or.inl (hvn ▸ hn)
        · exact Or.inr (Or.inl hvr)
      · exact Or.inr (Or.inr h2)
    · rw [if_neg hn] at hvs ⊢
      rw [lookupG_setG] at hvs
      by_cases hu : n = u
      · rw [if_pos hu] at hvs
        have hvs' : vs = get_output_nodes env n := (Option.some_injective _ hvs).symm
        subst hvs'
        exact Or.inr (Or.inr (List.mem_append_right _ hv))
      · rw [if_neg hu] at hvs
        rcases h u vs hvs v hv with hk | hf | h2
        · exact Or.inl (mem_keysG_setG _ _ _ _ hk)
        · rcases List.mem_cons.mp hf with hvn | hvr
          · exact Or.inl (hvn ▸ self_mem_keysG_setG _ _ _)
          · exact Or.inr (Or.inl hvr)
        · exact Or.inr (Or.inr (List.mem_append_left _ h2))

theorem foldl_buildStep_frontier_univ (env : TopoEnv)
    (hc : ∀ n, ∀ v ∈ env.outsRaw n, v ∈ env.univ) (f : List NodeId) :
    ∀ acc : GraphAL × List NodeId, (∀ v ∈ acc.2, v ∈ env.univ) →
      ∀ v ∈ (f.foldl (buildStep env) acc).2, v ∈ env.univ := by
  induction f with
  | nil => intro acc h; exact h
  | cons n rest ih =>
    intro acc h
    rw [List.foldl_cons]
    apply ih
    unfold buildStep
    by_cases hn : n ∈ keysG acc.1
    · rw [if_pos hn]; exact h
    · rw [if_neg hn]
      intro v hv
      rcases List.mem_append.mp hv with hv | hv
      · exact h v hv
      · exact hc n v (mem_get_output_nodes hv)

theorem foldl_buildStep_decrease (env : TopoEnv) (f : List NodeId) :
    ∀ acc : GraphAL × List NodeId, (∀ n ∈ f, n ∈ env.univ) →
      remCount env.univ (keysG (f.foldl (buildStep env) acc).1)
          ≤ remCount env.univ (keysG acc.1) ∧
      ((f.foldl (buildStep env) acc).2 ≠ acc.2 →
        remCount env.univ (keysG (f.foldl (buildStep env) acc).1)
          < remCount env.univ (keysG acc.1)) := by
  induction f with
  | nil =>
    intro acc _
    exact ⟨Nat.le_refl _, fun h => absurd rfl h⟩
  | cons n rest ih =>
    intro acc hf
    rw [List.foldl_cons]
    have hrest : ∀ m ∈ rest, m ∈ env.univ :=
      fun m hm => hf m (List.mem_cons_of_mem n hm)
    unfold buildStep
    by_cases hn : n ∈ keysG acc.1
    · rw [if_pos hn]
      exact ih acc hrest
    · rw [if_neg hn]
      have hnuniv : n ∈ env.univ := hf n (List.mem_cons_self n rest)
      have hlt : remCount env.univ (keysG (setG acc.1 n (get_output_nodes env n)))
          < remCount env.univ (keysG acc.1) := by
        have h1 : remCount env.univ (keysG (setG acc.1 n (get_output_nodes env n)))
            ≤ remCount env.univ (n :: keysG acc.1) := by
          apply remCount_le_of_subset
          intro x hx
          rcases List.mem_cons.mp hx with hx | hx
          · exact hx ▸ self_mem_keysG_setG _ _ _
          · exact mem_keysG_setG _ _ _ _ hx
        exact Nat.lt_of_le_of_lt h1 (remCount_cons_lt env.univ hnuniv hn)
      have := ih (setG acc.1 n (get_output_nodes env n), acc.2 ++ get_output_nodes env n) hrest
      exact ⟨Nat.le_of_lt (Nat.lt_of_le_of_lt this.1 hlt),
        fun _ => Nat.lt_of_le_of_lt this.1 hlt⟩

theorem buildLoop_nil_frontier (env : TopoEnv) (fuel : Nat) (g : GraphAL) :
    buildLoop env fuel g [] = g := by
  cases fuel <;> simp [buildLoop]

theorem remCount_le_length (l visit : List NodeId) : remCount l visit ≤ l.length :=
  List.length_filter_le _ l

theorem buildLoop_spec (env : TopoEnv)
    (hc : ∀ n, ∀ v ∈ env.outsRaw n, v ∈ env.univ) :
    ∀ fuel g f, PendClosed g f → GraphVals env g → (∀ v ∈ f, v ∈ env.univ) →
      remCount env.univ (keysG g) < fuel →
      PendClosed (buildLoop env fuel g f) [] ∧
      GraphVals env (buildLoop env fuel g f) ∧
      (∀ k ∈ keysG g, k ∈ keysG (buildLoop env fuel g f)) := by
  intro fuel
  induction fuel with
  | zero =>
    intro g f _ _ _ hlt
    exact absurd hlt (Nat.not_lt_zero _)
  | succ n ih =>
    intro g f hp hv hf hlt
    by_cases hfe : f = []
    · subst hfe
      rw [buildLoop_nil_frontier]
      exact ⟨hp, hv, fun k hk => hk⟩
    · have hstep : buildLoop env (n + 1) g f
          = buildLoop env n (buildPass env g f).1 (buildPass env g f).2 := by
        conv_lhs => rw [buildLoop]
        rw [if_neg hfe]
      rw [hstep]
      have hpend1 : PendClosed (buildPass env g f).1 (buildPass env g f).2 := by
        apply foldl_buildStep_pend
        intro u vs hvs v hv'
        rcases hp u vs hvs v hv' with hk | hfm
        · exact Or.inl hk
        · exact Or.inr (Or.inl hfm)
      have hvals1 : GraphVals env (buildPass env g f).1 :=
        foldl_buildStep_vals env f (g, []) hv
      have huniv1 : ∀ v ∈ (buildPass env g f).2, v ∈ env.univ :=
        foldl_buildStep_frontier_univ env hc f (g, []) (by intro v hv'; simp at hv')
      have hmono1 : ∀ k ∈ keysG g, k ∈ keysG (buildPass env g f).1 :=
        fun k hk => foldl_buildStep_keys_mono env f (g, []) k hk
      by_cases hf2 : (buildPass env g f).2 = []
      · rw [hf2, buildLoop_nil_frontier]
        refine ⟨?_, hvals1, hmono1⟩
        rw [← hf2]
        exact hpend1
      · have hdec := (foldl_buildStep_decrease env f (g, []) hf).2 hf2
        have hlt2 : remCount env.univ (keysG (buildPass env g f).1) < n := by
          unfold buildPass at hdec ⊢
          dsimp only at hdec
          omega
        obtain ⟨c1, c2, c3⟩ := ih (buildPass env g f).1 (buildPass env g f).2
          hpend1 hvals1 huniv1 hlt2
        exact ⟨c1, c2, fun k hk => c3 k (hmono1 k hk)⟩

/-- The graph `_build_graph` returns is key-closed, stores exactly the
`get_output_nodes` adjacency, and contains every start node as a key. -/
theorem build_graph_spec (env : TopoEnv)
    (hc : ∀ n, ∀ v ∈ env.outsRaw n, v ∈ env.univ) (start : List NodeId) :
    ClosedG (_build_graph env start) ∧ GraphVals env (_build_graph env start) ∧
    ∀ s ∈ start, s ∈ keysG (_build_graph env start) := by
  have main : ∀ (rest : List NodeId) (g : GraphAL), PendClosed g [] →
      GraphVals env g →
      PendClosed (rest.foldl (fun g node =>
        buildLoop env (env.univ.length + 1)
          (setG g node (get_output_nodes env node)) (get_output_nodes env node)) g) [] ∧
      GraphVals env (rest.foldl (fun g node =>
        buildLoop env (env.univ.length + 1)
          (setG g node (get_output_nodes env node)) (get_output_nodes env node)) g) ∧
      (∀ k ∈ keysG g, k ∈ keysG (rest.foldl (fun g node =>
        buildLoop env (env.univ.length + 1)
          (setG g node (get_output_nodes env node)) (get_output_nodes env node)) g)) ∧
      (∀ s ∈ rest, s ∈ keysG (rest.foldl (fun g node =>
        buildLoop env (env.univ.length + 1)
          (setG g node (get_output_nodes env node)) (get_output_nodes env node)) g)) := by
    intro rest
    induction rest with
    | nil =>
      intro g hp hv
      exact ⟨hp, hv, fun k hk => hk, fun s hs => by simp at hs⟩
    | cons node rest' ih =>
      intro g hp hv
      rw [List.foldl_cons]
      set g1 := setG g node (get_output_nodes env node) with hg1
      have hpend1 : PendClosed g1 (get_output_nodes env node) := by
        intro u vs hvs v hv'
        rw [hg1, lookupG_setG] at hvs
        by_cases hu : node = u
        · rw [if_pos hu] at hvs
          have : vs = get_output_nodes env node := (Option.some_injective _ hvs).symm
          subst this
          exact Or.inr hv'
        · rw [if_neg hu] at hvs
          rcases hp u vs hvs v hv' with hk | hfm
          · exact Or.inl (mem_keysG_setG _ _ _ _ hk)
          · simp at hfm
      have hvals1 : GraphVals env g1 := by
        intro u vs hvs
        rw [hg1, lookupG_setG] at hvs
        by_cases hu : node = u
        · rw [if_pos hu] at hvs
          rw [← hu]
          exact (Option.some_injective _ hvs).symm
        · rw [if_neg hu] at hvs
          exact hv u vs hvs
      have huniv1 : ∀ v ∈ get_output_nodes env node, v ∈ env.univ :=
        fun v hv' => hc node v (mem_get_output_nodes hv')
      have hlt : remCount env.univ (keysG g1) < env.univ.length + 1 :=
        Nat.lt_succ_of_le (remCount_le_length _ _)
      obtain ⟨c1, c2, c3⟩ := buildLoop_spec env hc (env.univ.length + 1) g1
        (get_output_nodes env node) hpend1 hvals1 huniv1 hlt
      obtain ⟨d1, d2, d3, d4⟩ := ih _ c1 c2
      refine ⟨d1, d2, ?_, ?_⟩
      · intro k hk
        exact d3 k (c3 k (mem_keysG_setG _ _ _ _ hk))
      · intro s hs
        rcases List.mem_cons.mp hs with hs | hs
        · subst hs
          exact d3 s (c3 s (self_mem_keysG_setG _ _ _))
        · exact d4 s hs
  obtain ⟨c1, c2, _, c4⟩ := main start [] (by intro u vs hvs; simp [lookupG] at hvs)
    (by intro u vs hvs; simp [lookupG] at hvs)
  exact ⟨ClosedG_of_pendClosed c1, c2, c4⟩

/-! ### Postorder soundness of the DFS -/

/-- Every node's successors appear in `order` strictly earlier. -/
def PostSorted (g : GraphAL) (order : List NodeId) : Prop :=
  ∀ u ∈ order, ∀ v ∈ adjG g u, v ∈ order ∧ order.indexOf v < order.indexOf u

theorem PostSorted_append (g : GraphAL) {order : List NodeId}
    (hps : PostSorted g order) {v : NodeId} (hv : v ∉ order)
    (hadj : ∀ w ∈ adjG g v, w ∈ order) : PostSorted g (order ++ [v]) := by
  intro u hu w hw
  rcases List.mem_append.mp hu with hu | hu
  · obtain ⟨h1, h2⟩ := hps u hu w hw
    refine ⟨List.mem_append_left _ h1, ?_⟩
    rw [List.indexOf_append_of_mem h1, List.indexOf_append_of_mem hu]
    exact h2
  · have hu' : u = v := by simpa using hu
    subst hu'
    have hw' : w ∈ order := hadj w hw
    refine ⟨List.mem_append_left _ hw', ?_⟩
    rw [List.indexOf_append_of_mem hw']
    have hidx : (order ++ [u]).indexOf u = order.length := by
      rw [List.indexOf_append_of_not_mem hv]; simp
    rw [hidx]
    exact List.indexOf_lt_length.mpr hw'

theorem dfsVisitList_spec (g : GraphAL)
    (hacyc : ∀ n, ¬ Relation.TransGen (EdgeG g) n n)
    (hclosed : ClosedG g) :
    ∀ visit order ns, ∀ gray : List NodeId,
      (∀ x, x ∈ visit ↔ (x ∈ order ∨ x ∈ gray)) →
      order.Nodup →
      PostSorted g order →
      (∀ x ∈ gray, x ∉ order) →
      (∀ w ∈ gray, ∀ n ∈ ns, Relation.TransGen (EdgeG g) w n) →
      (∀ x, x ∈ (dfsVisitList g visit order ns).1.1 ↔
          (x ∈ (dfsVisitList g visit order ns).1.2 ∨ x ∈ gray)) ∧
      (∃ d, (dfsVisitList g visit order ns).1.2 = order ++ d) ∧
      (dfsVisitList g visit order ns).1.2.Nodup ∧
      PostSorted g (dfsVisitList g visit order ns).1.2 ∧
      (∀ x ∈ gray, x ∉ (dfsVisitList g visit order ns).1.2) ∧
      (∀ n ∈ ns, n ∈ keysG g → n ∈ (dfsVisitList g visit order ns).1.2) := by
  intro visit order ns
  induction visit, order, ns using dfsVisitList.induct g with
  | case1 visit order =>
    intro gray hvo hnd hps hdisj _
    rw [dfsVisitList]
    exact ⟨hvo, ⟨[], by simp⟩, hnd, hps, hdisj, fun n hn => by simp at hn⟩
  | case2 visit order v vs h r1 ih1 r2 ih2 =>
    intro gray hvo hnd hps hdisj hgray
    rw [dfsVisitList]
    simp only [dif_pos h]
    have hvnv : v ∉ visit := h.2
    have hvno : v ∉ order := fun ho => hvnv ((hvo v).mpr (Or.inl ho))
    have hvng : v ∉ gray := fun hg => hvnv ((hvo v).mpr (Or.inr hg))
    have hvo1 : ∀ x, x ∈ v :: visit ↔ (x ∈ order ∨ x ∈ v :: gray) := by
      intro x
      rw [List.mem_cons, List.mem_cons, hvo x]
      tauto
    have hdisj1 : ∀ x ∈ v :: gray, x ∉ order := by
      intro x hx
      rcases List.mem_cons.mp hx with hx | hx
      · exact hx ▸ hvno
      · exact hdisj x hx
    have hgray1 : ∀ w ∈ v :: gray, ∀ n ∈ adjG g v,
        Relation.TransGen (EdgeG g) w n := by
      intro w hw n hn
      rcases List.mem_cons.mp hw with hw | hw
      · exact hw ▸ Relation.TransGen.single hn
      · exact Relation.TransGen.tail (hgray w hw v (List.mem_cons_self v vs)) hn
    obtain ⟨a1, a2, a3, a4, a5, a6⟩ := ih1 (v :: gray) hvo1 hnd hps hdisj1 hgray1
    have hvnO1 : v ∉ (dfsVisitList g (v :: visit) order (adjG g v)).1.2 :=
      a5 v (List.mem_cons_self v gray)
    have hvo2 : ∀ x, x ∈ (dfsVisitList g (v :: visit) order (adjG g v)).1.1 ↔
        (x ∈ (dfsVisitList g (v :: visit) order (adjG g v)).1.2 ++ [v] ∨ x ∈ gray) := by
      intro x
      rw [a1 x, List.mem_append, List.mem_singleton, List.mem_cons]
      tauto
    have hnd2 : ((dfsVisitList g (v :: visit) order (adjG g v)).1.2 ++ [v]).Nodup := by
      simp [List.nodup_append, hvnO1, a3]
    have hps2 : PostSorted g
        ((dfsVisitList g (v :: visit) order (adjG g v)).1.2 ++ [v]) := by
      apply PostSorted_append g a4 hvnO1
      intro w hw
      exact a6 w hw (hclosed v w hw)
    have hdisj2 : ∀ x ∈ gray,
        x ∉ (dfsVisitList g (v :: visit) order (adjG g v)).1.2 ++ [v] := by
      intro x hx hmem
      rcases List.mem_append.mp hmem with hm | hm
      · exact a5 x (List.mem_cons_of_mem v hx) hm
      · exact hvng ((List.mem_singleton.mp hm) ▸ hx)
    have hgray2 : ∀ w ∈ gray, ∀ n ∈ vs, Relation.TransGen (EdgeG g) w n :=
      fun w hw n hn => hgray w hw n (List.mem_cons_of_mem v hn)
    obtain ⟨b1, b2, b3, b4, b5, b6⟩ := ih2 gray hvo2 hnd2 hps2 hdisj2 hgray2
    refine ⟨b1, ?_, b3, b4, b5, ?_⟩
    · obtain ⟨d1, hd1⟩ := a2
      obtain ⟨d2, hd2⟩ := b2
      exact ⟨d1 ++ [v] ++ d2, by rw [hd2, hd1]; simp⟩
    · intro n hn hkey
      rcases List.mem_cons.mp hn with hn | hn
      · obtain ⟨d2, hd2⟩ := b2
        rw [hd2, hn]
        exact List.mem_append_left _
          (List.mem_append_right _ (List.mem_singleton_self v))
      · exact b6 n hn hkey
  | case3 visit order v vs h ih =>
    intro gray hvo hnd hps hdisj hgray
    rw [dfsVisitList]
    simp only [dif_neg h]
    have hgray' : ∀ w ∈ gray, ∀ n ∈ vs, Relation.TransGen (EdgeG g) w n :=
      fun w hw n hn => hgray w hw n (List.mem_cons_of_mem v hn)
    obtain ⟨b1, b2, b3, b4, b5, b6⟩ := ih gray hvo hnd hps hdisj hgray'
    refine ⟨b1, b2, b3, b4, b5, ?_⟩
    intro n hn hkey
    rcases List.mem_cons.mp hn with hn | hn
    · subst hn
      have hnv : n ∈ visit := by
        by_contra hnv
        exact h ⟨hkey, hnv⟩
      rcases (hvo n).mp hnv with ho | hg
      · obtain ⟨d, hd⟩ := b2
        rw [hd]
        exact List.mem_append_left _ ho
      · exact absurd (hgray n hg n (List.mem_cons_self n vs))
          (by intro htg; exact hacyc n htg)
    · exact b6 n hn hkey

theorem build_graph_no_edges (env : TopoEnv) (start : List NodeId)
    (hstart : ∀ s ∈ start, get_output_nodes env s = []) :
    ∀ u v, ¬ EdgeG (_build_graph env start) u v := by
  have main : ∀ rest : List NodeId, (∀ s ∈ rest, get_output_nodes env s = []) →
      ∀ g : GraphAL, (∀ u vs, lookupG g u = some vs → vs = []) →
      ∀ u vs, lookupG (rest.foldl (fun g node =>
        buildLoop env (env.univ.length + 1)
          (setG g node (get_output_nodes env node)) (get_output_nodes env node)) g) u
        = some vs → vs = [] := by
    intro rest
    induction rest with
    | nil => intro _ g hg; exact hg
    | cons node rest' ih =>
      intro hr g hg
      rw [List.foldl_cons]
      have hnode : get_output_nodes env node = [] :=
        hr node (List.mem_cons_self _ _)
      rw [hnode, buildLoop_nil_frontier]
      apply ih (fun s hs => hr s (List.mem_cons_of_mem node hs))
      intro u vs hvs
      rw [lookupG_setG] at hvs
      by_cases hu : node = u
      · rw [if_pos hu] at hvs
        exact (Option.some_injective _ hvs).symm
      · rw [if_neg hu] at hvs
        exact hg u vs hvs
  intro u v he
  obtain ⟨vs, hvs, hmem⟩ := EdgeG_iff_lookupG.mp he
  have hnil := main start hstart []
    (by intro u' vs' hvs'; simp [lookupG] at hvs') u vs hvs
  rw [hnil] at hmem
  simp at hmem

/-- C4: whenever the reachability graph that `_build_graph` constructs
from the (normalised) start set is acyclic, `topological_sort` emits each
edge's source strictly before its target.  `hclosed` confines the graph's
connections to its finite node universe; `hcons` ties the view-level
"has connected output" test to the model connections. -/
theorem topological_sort_respects_edges (env : TopoEnv) (start all : List NodeId)
    (hclosed : ∀ n, ∀ v ∈ env.outsRaw n, v ∈ env.univ)
    (hcons : ∀ n, env.hasOut n = false → env.outsRaw n = [])
    (hacyc : ∀ n, ¬ Relation.TransGen
      (EdgeG (_build_graph env (startSet env start all))) n n) :
    ∀ u v, EdgeG (_build_graph env (startSet env start all)) u v →
      u ∈ topological_sort env start all →
      ∃ i j : Fin (topological_sort env start all).length,
        (i : Nat) < (j : Nat) ∧
        (topological_sort env start all).get i = u ∧
        (topological_sort env start all).get j = v := by
  intro u v he hu
  by_cases h1 : (startSet env start all).isEmpty
  · have hres : topological_sort env start all = [] := by
      unfold topological_sort
      rw [if_pos h1]
    rw [hres] at hu
    simp at hu
  · by_cases h2 : ((startSet env start all).filter
        (fun n => _has_output_node env n)).isEmpty
    · exfalso
      have hout : ∀ s ∈ startSet env start all, get_output_nodes env s = [] := by
        intro s hs
        have hfo : env.hasOut s = false := by
          by_contra hfo
          have hmem : s ∈ (startSet env start all).filter
              (fun n => _has_output_node env n) := by
            refine List.mem_filter.mpr ⟨hs, ?_⟩
            unfold _has_output_node
            cases hb : env.hasOut s with
            | false => exact absurd hb hfo
            | true => rfl
          rw [List.isEmpty_iff.mp h2] at hmem
          simp at hmem
        unfold get_output_nodes
        rw [hcons s hfo]
        rfl
      exact build_graph_no_edges env _ hout u v he
    · by_cases h3 : (_build_graph env (startSet env start all)).isEmpty
      · have hres : topological_sort env start all = [] := by
          unfold topological_sort
          rw [if_neg h1, if_neg h2, if_pos h3]
        rw [hres] at hu
        simp at hu
      · have hres : topological_sort env start all =
            ((dfsVisitList (_build_graph env (startSet env start all)) [] []
              (startSet env start all)).1.2).reverse := by
          unfold topological_sort
          rw [if_neg h1, if_neg h2, if_neg h3]
        obtain ⟨hcg, _, _⟩ := build_graph_spec env hclosed (startSet env start all)
        obtain ⟨_, _, hnd, hps, _, _⟩ := dfsVisitList_spec
          (_build_graph env (startSet env start all)) hacyc hcg
          [] [] (startSet env start all) []
          (by simp) List.nodup_nil
          (by intro u' hu' v' hv'; simp at hu')
          (by simp) (by simp)
        rw [hres] at hu ⊢
        have humem : u ∈ (dfsVisitList (_build_graph env (startSet env start all))
            [] [] (startSet env start all)).1.2 := List.mem_reverse.mp hu
        obtain ⟨hvmem, hidx⟩ := hps u humem v he
        have hpu := List.indexOf_lt_length.mpr humem
        have hpv := List.indexOf_lt_length.mpr hvmem
        set order := (dfsVisitList (_build_graph env (startSet env start all))
          [] [] (startSet env start all)).1.2 with horder
        have hlen : order.reverse.length = order.length := List.length_reverse order
        refine ⟨⟨order.length - 1 - order.indexOf u, by rw [hlen]; omega⟩,
          ⟨order.length - 1 - order.indexOf v, by rw [hlen]; omega⟩,
          by simp only; omega, ?_, ?_⟩
        · rw [List.get_eq_getElem]
          simp only
          rw [List.getElem_reverse]
          have he1 : order.length - 1 - (order.length - 1 - order.indexOf u)
              = order.indexOf u := by omega
          simp only [he1]
          exact List.getElem_indexOf hpu
        · rw [List.get_eq_getElem]
          simp only
          rw [List.getElem_reverse]
          have he1 : order.length - 1 - (order.length - 1 - order.indexOf v)
              = order.indexOf v := by omega
          simp only [he1]
          exact List.getElem_indexOf hpv

theorem lookupG_mem {g : GraphAL} {u : NodeId} {vs : List NodeId}
    (h : lookupG g u = some vs) : (u, vs) ∈ g := by
  induction g with
  | nil => simp [lookupG] at h
  | cons e rest ih =>
    obtain ⟨ek, ev⟩ := e
    by_cases hek : ek = u
    · subst hek
      rw [lookupG_cons_eq] at h
      have hev : ev = vs := Option.some_injective _ h
      rw [← hev]
      exact List.mem_cons_self _ _
    · rw [lookupG_cons_ne _ _ _ _ hek] at h
      exact List.mem_cons_of_mem _ (ih h)

/-- A rank function certifies acyclicity of a finite graph. -/
theorem acyclic_of_rank (g : GraphAL) (rk : NodeId → Nat)
    (h : ∀ e ∈ g, ∀ v ∈ e.2, rk e.1 < rk v) :
    ∀ n, ¬ Relation.TransGen (EdgeG g) n n := by
  have hstep : ∀ a b, EdgeG g a b → rk a < rk b := by
    intro a b hab
    obtain ⟨vs, hvs, hmem⟩ := EdgeG_iff_lookupG.mp hab
    exact h (a, vs) (lookupG_mem hvs) b hmem
  have hmono : ∀ a b, Relation.TransGen (EdgeG g) a b → rk a < rk b := by
    intro a b hab
    induction hab with
    | single h1 => exact hstep _ _ h1
    | tail _ h2 ih => exact Nat.lt_trans ih (hstep _ _ h2)
  intro n hn
  exact Nat.lt_irrefl _ (hmono n n hn)

/-- The diamond DAG: edges 0→1, 0→2, 1→3, 2→3. -/
def envDia : TopoEnv :=
  ⟨[0, 1, 2, 3],
    (fun n => if n = 0 then [1, 2] else if n = 1 then [3] else
      if n = 2 then [3] else []),
    (fun n => decide (n = 1 ∨ n = 2 ∨ n = 3)),
    (fun n => decide (n = 0 ∨ n = 1 ∨ n = 2))⟩

/-- Witness for C4: the diamond started from `{0}` sorts to `[0, 2, 1, 3]`
(A first, D last, B and C before D), and the theorem places edge 0→1's
endpoints in order. -/
theorem topological_sort_respects_edges_witness :
    topological_sort envDia [0] [] = [0, 2, 1, 3] ∧
    EdgeG (_build_graph envDia (startSet envDia [0] [])) 0 1 ∧
    ∃ i j : Fin (topological_sort envDia [0] []).length,
      (i : Nat) < (j : Nat) ∧
      (topological_sort envDia [0] []).get i = 0 ∧
      (topological_sort envDia [0] []).get j = 1 := by
  have hstart : startSet envDia [0] [] = [0] := rfl
  have hbuild : _build_graph envDia (startSet envDia [0] [])
      = [(0, [1, 2]), (1, [3]), (2, [3]), (3, [])] := by decide
  have hdfs : (dfsVisitList [(0, [1, 2]), (1, [3]), (2, [3]), (3, [])]
      [] [] [0]).1 = ([2, 3, 1, 0], [3, 1, 2, 0]) :=
    dfsVisitList_eq_of_dfsFuel _ 20 _ _ _ _ (by decide)
  have hres : topological_sort envDia [0] [] = [0, 2, 1, 3] := by
    unfold topological_sort
    rw [hbuild, hstart, hdfs]
    decide
  have hclosed : ∀ n, ∀ v ∈ envDia.outsRaw n, v ∈ envDia.univ := by
    intro n
    match n with
    | 0 => decide
    | 1 => decide
    | 2 => decide
    | (m + 3) =>
      intro v hv
      have : envDia.outsRaw (m + 3) = [] := rfl
      rw [this] at hv
      simp at hv
  have hcons : ∀ n, envDia.hasOut n = false → envDia.outsRaw n = [] := by
    intro n
    match n with
    | 0 => intro hfo; exact absurd hfo (by decide)
    | 1 => intro hfo; exact absurd hfo (by decide)
    | 2 => intro hfo; exact absurd hfo (by decide)
    | (m + 3) => intro _; rfl
  have hacyc : ∀ n, ¬ Relation.TransGen
      (EdgeG (_build_graph envDia (startSet envDia [0] []))) n n := by
    rw [hbuild]
    exact acyclic_of_rank _ (fun n => n) (by decide)
  refine ⟨hres, by rw [hbuild]; decide, ?_⟩
  exact topological_sort_respects_edges envDia [0] [] hclosed hcons hacyc 0 1
    (by rw [hbuild]; decide) (by rw [hres]; decide)

/-! ## Claim C7: `PropertyChangedCmd` no-op guard

State of one node as touched by the command: its model properties, the
view widgets (`view.widgets`), the view attributes set through `setattr`
(with the `pos` → `xy_pos` remap), the property-bin widget, and a log of
every mutation / notification performed. -/

structure NodeViewState where
  modelProps : String → Option String
  hasWidgets : Bool
  widgetKeys : List String
  widgetVal : String → Option String
  viewPropKeys : List String
  viewAttr : String → Option String
  hasBinWidget : Bool
  binVal : String → Option String
  calls : List String

/-- `PropertyChangedCmd.set_node_prop`. -/
def set_node_prop (name : String) (value : Option String)
    (st : NodeViewState) : NodeViewState :=
  let st1 := { st with
    modelProps := fun k => if k = name then value else st.modelProps k,
    calls := st.calls ++ ["model.set_property"] }
  let st2 := if st1.hasWidgets = true ∧ name ∈ st1.widgetKeys then
      (if st1.widgetVal name ≠ value then
        { st1 with
          widgetVal := fun k => if k = name then value else st1.widgetVal k,
          calls := st1.calls ++ ["widget.value"] }
      else st1)
    else st1
  if name ∈ st2.viewPropKeys then
    { st2 with
      viewAttr := fun k =>
        if k = (if name = "pos" then "xy_pos" else name) then value
        else st2.viewAttr k,
      calls := st2.calls ++ ["setattr"] }
  else st2

/-- `PropertyChangedCmd.update_prop_bin`. -/
def update_prop_bin (name : String) (value : Option String)
    (st : NodeViewState) : NodeViewState :=
  if st.hasBinWidget = true then
    (if st.binVal name ≠ value then
      { st with
        binVal := fun k => if k = name then value else st.binVal k,
        calls := st.calls ++ ["prop_bin.set_value"] }
    else st)
  else st

/-- `PropertyChangedCmd.redo`: guarded on `old_val != new_val`. -/
def propertyChangedCmdRedo (old_val new_val : Option String) (name : String)
    (st : NodeViewState) : NodeViewState :=
  if old_val ≠ new_val then
    update_prop_bin name new_val (set_node_prop name new_val st)
  else st

/-- `PropertyChangedCmd.undo`: guarded on `old_val != new_val`. -/
def propertyChangedCmdUndo (old_val new_val : Option String) (name : String)
    (st : NodeViewState) : NodeViewState :=
  if old_val ≠ new_val then
    update_prop_bin name old_val (set_node_prop name old_val st)
  else st

/-- C7: a `PropertyChangedCmd` whose captured old value equals its new
value leaves the model, view, widget, and property-bin state untouched and
performs zero mutation / notification calls, on both redo and undo. -/
theorem propertyChanged_noop (old_val new_val : Option String) (name : String)
    (st : NodeViewState) (h : old_val = new_val) :
    propertyChangedCmdRedo old_val new_val name st = st ∧
    propertyChangedCmdUndo old_val new_val name st = st ∧
    (propertyChangedCmdRedo old_val new_val name st).calls = st.calls ∧
    (propertyChangedCmdUndo old_val new_val name st).calls = st.calls := by
  subst h
  unfold propertyChangedCmdRedo propertyChangedCmdUndo
  simp

/-- Fixture state for the C7 witness. -/
def stNV : NodeViewState :=
  ⟨(fun k => if k = "p" then some "x" else none), true, ["p"],
    (fun _ => some "x"), ["p"], (fun _ => none), true, (fun _ => some "x"), []⟩

/-- Witness for C7: a command built with `old == new` at a concrete state. -/
theorem propertyChanged_noop_witness :
    propertyChangedCmdRedo (some "x") (some "x") "p" stNV = stNV ∧
    (propertyChangedCmdUndo (some "x") (some "x") "p" stNV).calls = [] :=
  ⟨(propertyChanged_noop (some "x") (some "x") "p" stNV rfl).1,
   (propertyChanged_noop (some "x") (some "x") "p" stNV rfl).2.2.2⟩

/-! ## Claim C1: the undo/redo inverse law

The graph-model state all seven commands touch: the `graph.model.nodes`
dict (its key list — each id maps to its fixed node object), each node
model's position and property mapping, each port model's
`connected_ports`, and each port's visibility flag. -/

structure World where
  nodes : List NodeId
  pos : NodeId → Int × Int
  props : NodeId → String → Option String
  conn : ConnState
  visible : PortId → Bool

/-- Static port data used by the commands. -/
structure CmdEnv where
  portNode : PortId → NodeId
  portName : PortId → PName

/-- The commands only read `spec` of a `PortEnv`; adapt. -/
def cmdPortEnv (env : CmdEnv) : PortEnv :=
  ⟨[], fun p => ⟨env.portNode p, env.portName p⟩⟩

def updF {β : Type} (f : Nat → β) (n : Nat) (v : β) : Nat → β :=
  fun m => if m = n then v else f m

def updProps (f : NodeId → String → Option String) (n : NodeId) (name : String)
    (v : Option String) : NodeId → String → Option String :=
  fun m k => if m = n ∧ k = name then v else f m k

/-- Python dict insert `d[n] = node`: keeps position if present, else
appends. -/
def pyInsert (l : List NodeId) (n : NodeId) : List NodeId :=
  if n ∈ l then l else l ++ [n]

/-- Python dict `d.pop(n)`: `KeyError` (`none`) when absent. -/
def pyPop (l : List NodeId) (n : NodeId) : Option (List NodeId) :=
  if n ∈ l then some (l.erase n) else none

/-- One command with its captured "before" data, as pushed. -/
inductive Cmd where
  | propertyChanged (node : NodeId) (name : String) (oldV newV : Option String)
  | nodeMoved (node : NodeId) (pos prevPos : Int × Int)
  | nodeAdded (node : NodeId)
  | nodeRemoved (node : NodeId) (inputs outputs : List (PortId × List PortId))
  | portConnected (src trg : PortId)
  | portDisconnected (src trg : PortId)
  | portVisible (port : PortId) (visible : Bool)

/-- The elementary half-operations performed by `NodeRemovedCmd`'s
`[port.disconnect_from(p) for p in connected_ports]` loops (and by the
reconnection loops of its undo): for each captured pair, first the
captured port's side, then the peer's side — modelled from the spec,
which specifies `connect`/`disconnect` as touching both endpoints. -/
def halfOps (prs : List (PortId × List PortId)) : List (PortId × PortId) :=
  prs.flatMap (fun pr => pr.2.flatMap (fun q => [(pr.1, q), (q, pr.1)]))

/-- The disconnect loops of `NodeRemovedCmd.redo`. -/
def disLoop (env : CmdEnv) (ops : List (PortId × PortId)) (c : ConnState) :
    ConnState :=
  ops.foldl (fun c o => disconnectHalf (cmdPortEnv env) o.1 o.2 c) c

/-- The reconnect loops of `NodeRemovedCmd.undo`. -/
def connLoop (env : CmdEnv) (ops : List (PortId × PortId)) (c : ConnState) :
    ConnState :=
  ops.foldl (fun c o => connectHalf (cmdPortEnv env) o.1 o.2 c) c

/-- The disconnect loop with each removal checked: `none` when a peer
name is not actually present (the capture disagrees with the model). -/
def disLoopChecked (env : CmdEnv) :
    List (PortId × PortId) → ConnState → Option ConnState
  | [], c => some c
  | o :: rest, c =>
    if env.portName o.2 ∈ lookupConnD (c o.1) (env.portNode o.2) then
      disLoopChecked env rest (disconnectHalf (cmdPortEnv env) o.1 o.2 c)
    else none

/-- The model-state effect of each command's `redo` (`none` = Python
raises, e.g. `dict.pop` on an absent key). -/
def worldRedo (env : CmdEnv) : Cmd → World → Option World
  | .propertyChanged node name oldV newV, σ =>
    some (if oldV ≠ newV then
      { σ with props := updProps σ.props node name newV } else σ)
  | .nodeMoved node pos prevPos, σ =>
    some (if pos = prevPos then σ else { σ with pos := updF σ.pos node pos })
  | .nodeAdded node, σ => some { σ with nodes := pyInsert σ.nodes node }
  | .nodeRemoved node ins outs, σ =>
    match pyPop σ.nodes node with
    | none => none
    | some ns =>
      some { σ with conn := disLoop env (halfOps (ins ++ outs)) σ.conn,
                    nodes := ns }
  | .portConnected s t, σ =>
    some { σ with conn := portConnectedCmdRedo (cmdPortEnv env) s t σ.conn }
  | .portDisconnected s t, σ =>
    some { σ with conn := portDisconnectedCmdRedo (cmdPortEnv env) s t σ.conn }
  | .portVisible port vis, σ =>
    some { σ with visible := updF σ.visible port (!vis) }

/-- The model-state effect of each command's `undo`. -/
def worldUndo (env : CmdEnv) : Cmd → World → Option World
  | .propertyChanged node name oldV newV, σ =>
    some (if oldV ≠ newV then
      { σ with props := updProps σ.props node name oldV } else σ)
  | .nodeMoved node _ prevPos, σ =>
    some { σ with pos := updF σ.pos node prevPos }
  | .nodeAdded node, σ =>
    match pyPop σ.nodes node with
    | none => none
    | some ns => some { σ with nodes := ns }
  | .nodeRemoved node ins outs, σ =>
    some { σ with nodes := pyInsert σ.nodes node,
                  conn := connLoop env (halfOps (ins ++ outs)) σ.conn }
  | .portConnected s t, σ =>
    some { σ with conn := portConnectedCmdUndo (cmdPortEnv env) s t σ.conn }
  | .portDisconnected s t, σ =>
    some { σ with conn := portDisconnectedCmdUndo (cmdPortEnv env) s t σ.conn }
  | .portVisible port vis, σ =>
    some { σ with visible := updF σ.visible port vis }

/-- Well-formedness of a pushed command against the state it is pushed
on: each captured "before" datum matches the model. -/
def Coh (env : CmdEnv) : Cmd → World → Prop
  | .propertyChanged node name oldV _, σ => oldV = σ.props node name
  | .nodeMoved node _ prevPos, σ => prevPos = σ.pos node
  | .nodeAdded node, σ => node ∉ σ.nodes
  | .nodeRemoved node ins outs, σ =>
    node ∈ σ.nodes ∧
    (disLoopChecked env (halfOps (ins ++ outs)) σ.conn).isSome
  | .portConnected _ _, _ => True
  | .portDisconnected s t, σ =>
    env.portName t ∈ lookupConnD (σ.conn s) (env.portNode t) ∧
    env.portName s ∈
      lookupConnD ((disconnectHalf (cmdPortEnv env) s t σ.conn) t)
        (env.portNode s)
  | .portVisible port vis, σ => vis = σ.visible port

/-- Pushing a list of commands in order (each `push` runs `redo` once). -/
def pushSeq (env : CmdEnv) : World → List Cmd → Option World
  | σ, [] => some σ
  | σ, c :: rest => (worldRedo env c σ).bind (fun σ1 => pushSeq env σ1 rest)

/-- Every command of the sequence is coherent at its push state. -/
def CohSeq (env : CmdEnv) : World → List Cmd → Prop
  | _, [] => True
  | σ, c :: rest =>
    Coh env c σ ∧
    (match worldRedo env c σ with
     | none => False
     | some σ1 => CohSeq env σ1 rest)

/-- Undo the commands, last first. -/
def undoSeq (env : CmdEnv) : World → List Cmd → Option World
  | σ, [] => some σ
  | σ, c :: rest => (undoSeq env σ rest).bind (worldUndo env c)

/-- Redo the commands, first first. -/
def redoSeq (env : CmdEnv) : World → List Cmd → Option World
  | σ, [] => some σ
  | σ, c :: rest => (worldRedo env c σ).bind (fun σ1 => redoSeq env σ1 rest)

/-! ### State equivalence and congruence of the command semantics -/

/-- Connection-state equivalence: under every port and key, the same
names up to order (order inside lists, and keys left holding `[]`, are
exactly the residue the commands do not restore). -/
def ConnEquiv (c c' : ConnState) : Prop :=
  ∀ p k, List.Perm (lookupConnD (c p) k) (lookupConnD (c' p) k)

/-- World equivalence: node-id multiset, exact positions, properties and
visibility, and `ConnEquiv` connections. -/
def WEquiv (σ σ' : World) : Prop :=
  List.Perm σ.nodes σ'.nodes ∧ σ.pos = σ'.pos ∧ σ.props = σ'.props ∧
  ConnEquiv σ.conn σ'.conn ∧ σ.visible = σ'.visible

theorem connEquiv_refl (c : ConnState) : ConnEquiv c c :=
  fun _ _ => List.Perm.refl _

theorem connEquiv_symm {c c' : ConnState} (h : ConnEquiv c c') : ConnEquiv c' c :=
  fun p k => (h p k).symm

theorem connEquiv_trans {a b c : ConnState} (h1 : ConnEquiv a b)
    (h2 : ConnEquiv b c) : ConnEquiv a c :=
  fun p k => (h1 p k).trans (h2 p k)

theorem wEquiv_refl (σ : World) : WEquiv σ σ :=
  ⟨List.Perm.refl _, rfl, rfl, connEquiv_refl _, rfl⟩

theorem wEquiv_symm {σ σ' : World} (h : WEquiv σ σ') : WEquiv σ' σ :=
  ⟨h.1.symm, h.2.1.symm, h.2.2.1.symm, connEquiv_symm h.2.2.2.1, h.2.2.2.2.symm⟩

theorem wEquiv_trans {a b c : World} (h1 : WEquiv a b) (h2 : WEquiv b c) :
    WEquiv a c :=
  ⟨h1.1.trans h2.1, h1.2.1.trans h2.2.1, h1.2.2.1.trans h2.2.2.1,
    connEquiv_trans h1.2.2.2.1 h2.2.2.2.1, h1.2.2.2.2.trans h2.2.2.2.2⟩

theorem lookupConnD_connectHalf (env : PortEnv) (p peer : PortId)
    (c : ConnState) (r : PortId) (k : NodeId) :
    lookupConnD (connectHalf env p peer c r) k =
      if r = p ∧ (env.spec peer).nodeId = k
      then lookupConnD (c r) k ++ [(env.spec peer).name]
      else lookupConnD (c r) k := by
  unfold connectHalf
  rw [updPort_apply]
  by_cases hr : r = p
  · subst hr
    rw [if_pos rfl, lookupConnD_connectSide]
    by_cases hk : (env.spec peer).nodeId = k
    · simp [hk]
    · simp [hk]
  · simp [hr]

theorem lookupConnD_disconnectHalf (env : PortEnv) (p peer : PortId)
    (c : ConnState) (r : PortId) (k : NodeId) :
    lookupConnD (disconnectHalf env p peer c r) k =
      if r = p ∧ (env.spec peer).nodeId = k
      then (lookupConnD (c r) k).erase (env.spec peer).name
      else lookupConnD (c r) k := by
  unfold disconnectHalf
  rw [updPort_apply]
  by_cases hr : r = p
  · subst hr
    rw [if_pos rfl, lookupConnD_disconnectSide]
    by_cases hk : (env.spec peer).nodeId = k
    · simp [hk]
    · simp [hk]
  · simp [hr]

theorem connectHalf_connEquiv (env : PortEnv) (p peer : PortId)
    {c c' : ConnState} (h : ConnEquiv c c') :
    ConnEquiv (connectHalf env p peer c) (connectHalf env p peer c') := by
  intro r k
  rw [lookupConnD_connectHalf, lookupConnD_connectHalf]
  by_cases hc : r = p ∧ (env.spec peer).nodeId = k
  · rw [if_pos hc, if_pos hc]
    exact (h r k).append_right _
  · rw [if_neg hc, if_neg hc]
    exact h r k

theorem disconnectHalf_connEquiv (env : PortEnv) (p peer : PortId)
    {c c' : ConnState} (h : ConnEquiv c c') :
    ConnEquiv (disconnectHalf env p peer c) (disconnectHalf env p peer c') := by
  intro r k
  rw [lookupConnD_disconnectHalf, lookupConnD_disconnectHalf]
  by_cases hc : r = p ∧ (env.spec peer).nodeId = k
  · rw [if_pos hc, if_pos hc]
    exact (h r k).erase _
  · rw [if_neg hc, if_neg hc]
    exact h r k

theorem disLoop_connEquiv (env : CmdEnv) (ops : List (PortId × PortId)) :
    ∀ {c c' : ConnState}, ConnEquiv c c' →
      ConnEquiv (disLoop env ops c) (disLoop env ops c') := by
  induction ops with
  | nil => intro c c' h; exact h
  | cons o rest ih =>
    intro c c' h
    unfold disLoop at ih ⊢
    rw [List.foldl_cons, List.foldl_cons]
    exact ih (disconnectHalf_connEquiv _ o.1 o.2 h)

theorem connLoop_connEquiv (env : CmdEnv) (ops : List (PortId × PortId)) :
    ∀ {c c' : ConnState}, ConnEquiv c c' →
      ConnEquiv (connLoop env ops c) (connLoop env ops c') := by
  induction ops with
  | nil => intro c c' h; exact h
  | cons o rest ih =>
    intro c c' h
    unfold connLoop at ih ⊢
    rw [List.foldl_cons, List.foldl_cons]
    exact ih (connectHalf_connEquiv _ o.1 o.2 h)

/-- Relating the optional results of a command on equivalent states. -/
def OptWEquiv : Option World → Option World → Prop
  | none, none => True
  | some σ, some σ' => WEquiv σ σ'
  | _, _ => False

theorem OptWEquiv_some {σ σ' : World} (h : WEquiv σ σ') :
    OptWEquiv (some σ) (some σ') := h

theorem OptWEquiv_none : OptWEquiv none none := trivial

theorem worldRedo_congr (env : CmdEnv) (c : Cmd) {σ σ' : World}
    (h : WEquiv σ σ') : OptWEquiv (worldRedo env c σ) (worldRedo env c σ') := by
  obtain ⟨hn, hp, hpr, hc, hv⟩ := h
  cases c with
  | propertyChanged node name oldV newV =>
    dsimp only [worldRedo]
    by_cases hne : oldV ≠ newV
    · rw [if_pos hne, if_pos hne, hpr]
      exact OptWEquiv_some ⟨hn, hp, rfl, hc, hv⟩
    · rw [if_neg hne, if_neg hne]
      exact OptWEquiv_some ⟨hn, hp, hpr, hc, hv⟩
  | nodeMoved node pos prevPos =>
    dsimp only [worldRedo]
    by_cases he : pos = prevPos
    · rw [if_pos he, if_pos he]
      exact OptWEquiv_some ⟨hn, hp, hpr, hc, hv⟩
    · rw [if_neg he, if_neg he, hp]
      exact OptWEquiv_some ⟨hn, rfl, hpr, hc, hv⟩
  | nodeAdded node =>
    dsimp only [worldRedo, pyInsert]
    by_cases hm : node ∈ σ.nodes
    · rw [if_pos hm, if_pos (hn.mem_iff.mp hm)]
      exact OptWEquiv_some ⟨hn, hp, hpr, hc, hv⟩
    · rw [if_neg hm, if_neg (fun hh => hm (hn.mem_iff.mpr hh))]
      exact OptWEquiv_some ⟨hn.append_right _, hp, hpr, hc, hv⟩
  | nodeRemoved node ins outs =>
    dsimp only [worldRedo, pyPop]
    by_cases hm : node ∈ σ.nodes
    · rw [if_pos hm, if_pos (hn.mem_iff.mp hm)]
      exact OptWEquiv_some ⟨hn.erase _, hp, hpr, disLoop_connEquiv env _ hc, hv⟩
    · rw [if_neg hm, if_neg (fun hh => hm (hn.mem_iff.mpr hh))]
      exact OptWEquiv_none
  | portConnected s t =>
    dsimp only [worldRedo, portConnectedCmdRedo]
    exact OptWEquiv_some ⟨hn, hp, hpr,
      connectHalf_connEquiv _ t s (connectHalf_connEquiv _ s t hc), hv⟩
  | portDisconnected s t =>
    dsimp only [worldRedo, portDisconnectedCmdRedo]
    exact OptWEquiv_some ⟨hn, hp, hpr,
      disconnectHalf_connEquiv _ t s (disconnectHalf_connEquiv _ s t hc), hv⟩
  | portVisible port vis =>
    dsimp only [worldRedo]
    rw [hv]
    exact OptWEquiv_some ⟨hn, hp, hpr, hc, rfl⟩

theorem worldUndo_congr (env : CmdEnv) (c : Cmd) {σ σ' : World}
    (h : WEquiv σ σ') : OptWEquiv (worldUndo env c σ) (worldUndo env c σ') := by
  obtain ⟨hn, hp, hpr, hc, hv⟩ := h
  cases c with
  | propertyChanged node name oldV newV =>
    dsimp only [worldUndo]
    by_cases hne : oldV ≠ newV
    · rw [if_pos hne, if_pos hne, hpr]
      exact OptWEquiv_some ⟨hn, hp, rfl, hc, hv⟩
    · rw [if_neg hne, if_neg hne]
      exact OptWEquiv_some ⟨hn, hp, hpr, hc, hv⟩
  | nodeMoved node pos prevPos =>
    dsimp only [worldUndo]
    rw [hp]
    exact OptWEquiv_some ⟨hn, rfl, hpr, hc, hv⟩
  | nodeAdded node =>
    dsimp only [worldUndo, pyPop]
    by_cases hm : node ∈ σ.nodes
    · rw [if_pos hm, if_pos (hn.mem_iff.mp hm)]
      exact OptWEquiv_some ⟨hn.erase _, hp, hpr, hc, hv⟩
    · rw [if_neg hm, if_neg (fun hh => hm (hn.mem_iff.mpr hh))]
      exact OptWEquiv_none
  | nodeRemoved node ins outs =>
    dsimp only [worldUndo, pyInsert]
    by_cases hm : node ∈ σ.nodes
    · rw [if_pos hm, if_pos (hn.mem_iff.mp hm)]
      exact OptWEquiv_some ⟨hn, hp, hpr, connLoop_connEquiv env _ hc, hv⟩
    · rw [if_neg hm, if_neg (fun hh => hm (hn.mem_iff.mpr hh))]
      exact OptWEquiv_some ⟨hn.append_right _, hp, hpr, connLoop_connEquiv env _ hc, hv⟩
  | portConnected s t =>
    dsimp only [worldUndo, portConnectedCmdUndo]
    exact OptWEquiv_some ⟨hn, hp, hpr,
      disconnectHalf_connEquiv _ t s (disconnectHalf_connEquiv _ s t hc), hv⟩
  | portDisconnected s t =>
    dsimp only [worldUndo, portDisconnectedCmdUndo]
    exact OptWEquiv_some ⟨hn, hp, hpr,
      connectHalf_connEquiv _ t s (connectHalf_connEquiv _ s t hc), hv⟩
  | portVisible port vis =>
    dsimp only [worldUndo]
    rw [hv]
    exact OptWEquiv_some ⟨hn, hp, hpr, hc, rfl⟩

theorem worldRedo_nodup (env : CmdEnv) (c : Cmd) {σ σ1 : World}
    (h : worldRedo env c σ = some σ1) (hnd : σ.nodes.Nodup) :
    σ1.nodes.Nodup := by
  cases c with
  | propertyChanged node name oldV newV =>
    dsimp only [worldRedo] at h
    by_cases hne : oldV ≠ newV <;> simp [hne] at h <;> rw [← h] <;> exact hnd
  | nodeMoved node pos prevPos =>
    dsimp only [worldRedo] at h
    by_cases he : pos = prevPos <;> simp [he] at h <;> rw [← h] <;> exact hnd
  | nodeAdded node =>
    dsimp only [worldRedo, pyInsert] at h
    by_cases hm : node ∈ σ.nodes
    · rw [if_pos hm] at h
      rw [← Option.some_injective _ h]
      exact hnd
    · rw [if_neg hm] at h
      rw [← Option.some_injective _ h]
      simp [List.nodup_append, hm, hnd]
  | nodeRemoved node ins outs =>
    dsimp only [worldRedo, pyPop] at h
    by_cases hm : node ∈ σ.nodes
    · rw [if_pos hm] at h
      simp at h
      rw [← h]
      exact hnd.erase _
    · rw [if_neg hm] at h
      simp at h
  | portConnected s t =>
    dsimp only [worldRedo] at h
    rw [← Option.some_injective _ h]
    exact hnd
  | portDisconnected s t =>
    dsimp only [worldRedo] at h
    rw [← Option.some_injective _ h]
    exact hnd
  | portVisible port vis =>
    dsimp only [worldRedo] at h
    rw [← Option.some_injective _ h]
    exact hnd

/-! ### Count accounting for the `NodeRemovedCmd` loops -/

/-- How many half-operations of `L` touch the counter `(r, k, a)`. -/
def hitCount (env : CmdEnv) (L : List (PortId × PortId)) (r : PortId)
    (k : NodeId) (a : PName) : Nat :=
  L.countP (fun o => decide (r = o.1 ∧ k = env.portNode o.2 ∧ a = env.portName o.2))

theorem hitCount_nil (env : CmdEnv) (r : PortId) (k : NodeId) (a : PName) :
    hitCount env [] r k a = 0 := rfl

theorem hitCount_cons (env : CmdEnv) (o : PortId × PortId)
    (L : List (PortId × PortId)) (r : PortId) (k : NodeId) (a : PName) :
    hitCount env (o :: L) r k a = hitCount env L r k a +
      (if r = o.1 ∧ k = env.portNode o.2 ∧ a = env.portName o.2 then 1 else 0) := by
  unfold hitCount
  rw [List.countP_cons]
  by_cases hc : r = o.1 ∧ k = env.portNode o.2 ∧ a = env.portName o.2 <;>
    simp [hc]

theorem cnt_connLoop (env : CmdEnv) (L : List (PortId × PortId)) :
    ∀ (c : ConnState) (r : PortId) (k : NodeId) (a : PName),
      cnt (connLoop env L c) r k a = cnt c r k a + hitCount env L r k a := by
  induction L with
  | nil => intro c r k a; simp [connLoop, hitCount]
  | cons o rest ih =>
    intro c r k a
    unfold connLoop at ih ⊢
    rw [List.foldl_cons, ih, hitCount_cons, cnt_connectHalf]
    have hspec : ((cmdPortEnv env).spec o.2).nodeId = env.portNode o.2 := rfl
    have hspec2 : ((cmdPortEnv env).spec o.2).name = env.portName o.2 := rfl
    rw [hspec, hspec2]
    omega

theorem disLoopChecked_count (env : CmdEnv) :
    ∀ (L : List (PortId × PortId)) (c c' : ConnState),
      disLoopChecked env L c = some c' →
      ∀ (r : PortId) (k : NodeId) (a : PName),
        cnt c' r k a + hitCount env L r k a = cnt c r k a := by
  intro L
  induction L with
  | nil =>
    intro c c' h r k a
    simp [disLoopChecked] at h
    subst h
    simp [hitCount]
  | cons o rest ih =>
    intro c c' h r k a
    unfold disLoopChecked at h
    by_cases hm : env.portName o.2 ∈ lookupConnD (c o.1) (env.portNode o.2)
    · rw [if_pos hm] at h
      have ihh := ih _ _ h r k a
      have hhalf := cnt_disconnectHalf (cmdPortEnv env) o.1 o.2 c r k a
      have hspec : ((cmdPortEnv env).spec o.2).nodeId = env.portNode o.2 := rfl
      have hspec2 : ((cmdPortEnv env).spec o.2).name = env.portName o.2 := rfl
      rw [hspec, hspec2] at hhalf
      rw [hitCount_cons]
      by_cases hc : r = o.1 ∧ k = env.portNode o.2 ∧ a = env.portName o.2
      · obtain ⟨h1, h2, h3⟩ := hc
        subst h1; subst h2; subst h3
        have hpos : 0 < cnt c o.1 (env.portNode o.2) (env.portName o.2) := by
          unfold cnt
          exact List.count_pos_iff.mpr hm
        rw [if_pos ⟨rfl, rfl, rfl⟩] at hhalf ⊢
        omega
      · rw [if_neg hc] at hhalf ⊢
        omega
    · rw [if_neg hm] at h
      simp at h

theorem disLoopChecked_runs (env : CmdEnv) :
    ∀ (L : List (PortId × PortId)) (c c' : ConnState),
      disLoopChecked env L c = some c' → disLoop env L c = c' := by
  intro L
  induction L with
  | nil =>
    intro c c' h
    simp [disLoopChecked] at h
    subst h
    rfl
  | cons o rest ih =>
    intro c c' h
    unfold disLoopChecked at h
    by_cases hm : env.portName o.2 ∈ lookupConnD (c o.1) (env.portNode o.2)
    · rw [if_pos hm] at h
      unfold disLoop at ih ⊢
      rw [List.foldl_cons]
      exact ih _ _ h
    · rw [if_neg hm] at h
      simp at h

/-- Re-running the captured connections after a checked disconnect loop
restores every connection list up to order. -/
theorem connLoop_disLoop_inverse (env : CmdEnv) (L : List (PortId × PortId))
    (c c' : ConnState) (h : disLoopChecked env L c = some c') :
    ConnEquiv (connLoop env L c') c := by
  intro p k
  rw [List.perm_iff_count]
  intro a
  have h1 := disLoopChecked_count env L c c' h p k a
  have h2 := cnt_connLoop env L c' p k a
  unfold cnt at h1 h2
  omega

/-! ### Each command's undo inverts its redo (up to `WEquiv`) -/

theorem updF_updF {β : Type} (f : Nat → β) (n : Nat) (a b : β) :
    updF (updF f n a) n b = updF f n b := by
  funext m
  unfold updF
  by_cases h : m = n <;> simp [h]

theorem updF_self {β : Type} (f : Nat → β) (n : Nat) : updF f n (f n) = f := by
  funext m
  unfold updF
  by_cases h : m = n <;> simp [h]

theorem updProps_updProps (f : NodeId → String → Option String) (n : NodeId)
    (name : String) (a b : Option String) :
    updProps (updProps f n name a) n name b = updProps f n name b := by
  funext m k
  unfold updProps
  by_cases h : m = n ∧ k = name <;> simp [h]

theorem updProps_self (f : NodeId → String → Option String) (n : NodeId)
    (name : String) : updProps f n name (f n name) = f := by
  funext m k
  unfold updProps
  by_cases h : m = n ∧ k = name
  · obtain ⟨h1, h2⟩ := h
    subst h1; subst h2
    simp
  · simp [h]

theorem portConnected_inverse (env : CmdEnv) (s t : PortId) (c : ConnState) :
    ConnEquiv (portConnectedCmdUndo (cmdPortEnv env) s t
      (portConnectedCmdRedo (cmdPortEnv env) s t c)) c := by
  intro p k
  rw [List.perm_iff_count]
  intro a
  show cnt (portConnectedCmdUndo (cmdPortEnv env) s t
      (portConnectedCmdRedo (cmdPortEnv env) s t c)) p k a = cnt c p k a
  unfold portConnectedCmdUndo portConnectedCmdRedo
  rw [cnt_disconnectHalf, cnt_disconnectHalf, cnt_connectHalf, cnt_connectHalf]
  omega

theorem portDisconnected_inverse (env : CmdEnv) (s t : PortId) (c : ConnState)
    (h1 : env.portName t ∈ lookupConnD (c s) (env.portNode t))
    (h2 : env.portName s ∈
      lookupConnD ((disconnectHalf (cmdPortEnv env) s t c) t) (env.portNode s)) :
    ConnEquiv (portDisconnectedCmdUndo (cmdPortEnv env) s t
      (portDisconnectedCmdRedo (cmdPortEnv env) s t c)) c := by
  intro p k
  rw [List.perm_iff_count]
  intro a
  show cnt (portDisconnectedCmdUndo (cmdPortEnv env) s t
      (portDisconnectedCmdRedo (cmdPortEnv env) s t c)) p k a = cnt c p k a
  unfold portDisconnectedCmdUndo portDisconnectedCmdRedo
  rw [cnt_connectHalf, cnt_connectHalf, cnt_disconnectHalf, cnt_disconnectHalf]
  have hm1 : 0 < cnt c s ((cmdPortEnv env).spec t).nodeId
      ((cmdPortEnv env).spec t).name := by
    unfold cnt
    exact List.count_pos_iff.mpr h1
  have hm2 : 0 < cnt (disconnectHalf (cmdPortEnv env) s t c) t
      ((cmdPortEnv env).spec s).nodeId ((cmdPortEnv env).spec s).name := by
    unfold cnt
    exact List.count_pos_iff.mpr h2
  rw [cnt_disconnectHalf] at hm2
  by_cases hA : p = s ∧ k = ((cmdPortEnv env).spec t).nodeId ∧
      a = ((cmdPortEnv env).spec t).name
  · rw [if_pos hA]
    obtain ⟨e1, e2, e3⟩ := hA
    have h1e : 0 < cnt c p k a := by
      rw [e1, e2, e3]; exact hm1
    by_cases hB : p = t ∧ k = ((cmdPortEnv env).spec s).nodeId ∧
        a = ((cmdPortEnv env).spec s).name
    · rw [if_pos hB]
      obtain ⟨f1, f2, f3⟩ := hB
      have h2e : 0 < cnt c p k a -
          (if t = s ∧ ((cmdPortEnv env).spec s).nodeId
                = ((cmdPortEnv env).spec t).nodeId ∧
              ((cmdPortEnv env).spec s).name = ((cmdPortEnv env).spec t).name
            then 1 else 0) := by
        rw [f1, f2, f3]; exact hm2
      rw [if_pos ⟨f1.symm.trans e1, f2.symm.trans e2, f3.symm.trans e3⟩] at h2e
      omega
    · rw [if_neg hB]
      omega
  · rw [if_neg hA]
    by_cases hB : p = t ∧ k = ((cmdPortEnv env).spec s).nodeId ∧
        a = ((cmdPortEnv env).spec s).name
    · rw [if_pos hB]
      obtain ⟨f1, f2, f3⟩ := hB
      have h2e : 0 < cnt c p k a -
          (if t = s ∧ ((cmdPortEnv env).spec s).nodeId
                = ((cmdPortEnv env).spec t).nodeId ∧
              ((cmdPortEnv env).spec s).name = ((cmdPortEnv env).spec t).name
            then 1 else 0) := by
        rw [f1, f2, f3]; exact hm2
      have h2x : 0 < cnt c p k a := lt_of_lt_of_le h2e (Nat.sub_le _ _)
      omega
    · rw [if_neg hB]
      omega

/-- Per-command inverse: on a coherent, duplicate-free state, a
successful `redo` is reversed by `undo` up to `WEquiv`. -/
theorem undo_of_redo (env : CmdEnv) (c : Cmd) (σ : World)
    (hnd : σ.nodes.Nodup) (hcoh : Coh env c σ) {σ1 : World}
    (hredo : worldRedo env c σ = some σ1) :
    ∃ τ, worldUndo env c σ1 = some τ ∧ WEquiv τ σ := by
  cases c with
  | propertyChanged node name oldV newV =>
    dsimp only [worldRedo] at hredo
    injection hredo with hσ1
    subst hσ1
    dsimp only [Coh] at hcoh
    refine ⟨_, rfl, ?_⟩
    by_cases h : oldV = newV
    · rw [if_neg (not_not_intro h), if_neg (not_not_intro h)]
      exact wEquiv_refl σ
    · rw [if_pos h, if_pos h]
      refine ⟨List.Perm.refl _, rfl, ?_, connEquiv_refl _, rfl⟩
      show updProps (updProps σ.props node name newV) node name oldV = σ.props
      rw [updProps_updProps, hcoh]
      exact updProps_self σ.props node name
  | nodeMoved node pos prevPos =>
    dsimp only [worldRedo] at hredo
    injection hredo with hσ1
    subst hσ1
    dsimp only [Coh] at hcoh
    refine ⟨_, rfl, ?_⟩
    by_cases h : pos = prevPos
    · rw [if_pos h]
      refine ⟨List.Perm.refl _, ?_, rfl, connEquiv_refl _, rfl⟩
      show updF σ.pos node prevPos = σ.pos
      rw [hcoh]
      exact updF_self σ.pos node
    · rw [if_neg h]
      refine ⟨List.Perm.refl _, ?_, rfl, connEquiv_refl _, rfl⟩
      show updF (updF σ.pos node pos) node prevPos = σ.pos
      rw [updF_updF, hcoh]
      exact updF_self σ.pos node
  | nodeAdded node =>
    dsimp only [worldRedo] at hredo
    injection hredo with hσ1
    subst hσ1
    dsimp only [Coh] at hcoh
    have hins : pyInsert σ.nodes node = σ.nodes ++ [node] := by
      unfold pyInsert; rw [if_neg hcoh]
    have hpop : pyPop (pyInsert σ.nodes node) node = some σ.nodes := by
      unfold pyPop
      rw [hins, if_pos (List.mem_append_right _ (by simp)),
        List.erase_append_right _ hcoh]
      simp
    refine ⟨σ, ?_, wEquiv_refl σ⟩
    dsimp only [worldUndo]
    rw [hpop]
  | nodeRemoved node ins outs =>
    dsimp only [Coh] at hcoh
    obtain ⟨hmem, hsome⟩ := hcoh
    obtain ⟨c', hc'⟩ := Option.isSome_iff_exists.mp hsome
    have hdis : disLoop env (halfOps (ins ++ outs)) σ.conn = c' :=
      disLoopChecked_runs env _ _ _ hc'
    have hpop : pyPop σ.nodes node = some (σ.nodes.erase node) := by
      unfold pyPop; rw [if_pos hmem]
    dsimp only [worldRedo] at hredo
    rw [hpop] at hredo
    dsimp only at hredo
    injection hredo with hσ1
    subst hσ1
    refine ⟨_, rfl, ?_⟩
    refine ⟨?_, rfl, rfl, ?_, rfl⟩
    · show List.Perm (pyInsert (σ.nodes.erase node) node) σ.nodes
      have hnm : node ∉ σ.nodes.erase node := fun hx =>
        ((List.Nodup.mem_erase_iff hnd).mp hx).1 rfl
      unfold pyInsert
      rw [if_neg hnm]
      exact (List.perm_append_singleton node _).trans
        (List.perm_cons_erase hmem).symm
    · show ConnEquiv (connLoop env (halfOps (ins ++ outs))
        (disLoop env (halfOps (ins ++ outs)) σ.conn)) σ.conn
      rw [hdis]
      exact connLoop_disLoop_inverse env _ σ.conn c' hc'
  | portConnected s t =>
    dsimp only [worldRedo] at hredo
    injection hredo with hσ1
    subst hσ1
    refine ⟨_, rfl, ?_⟩
    refine ⟨List.Perm.refl _, rfl, rfl, ?_, rfl⟩
    show ConnEquiv (portConnectedCmdUndo (cmdPortEnv env) s t
      (portConnectedCmdRedo (cmdPortEnv env) s t σ.conn)) σ.conn
    exact portConnected_inverse env s t σ.conn
  | portDisconnected s t =>
    dsimp only [worldRedo] at hredo
    injection hredo with hσ1
    subst hσ1
    dsimp only [Coh] at hcoh
    refine ⟨_, rfl, ?_⟩
    refine ⟨List.Perm.refl _, rfl, rfl, ?_, rfl⟩
    show ConnEquiv (portDisconnectedCmdUndo (cmdPortEnv env) s t
      (portDisconnectedCmdRedo (cmdPortEnv env) s t σ.conn)) σ.conn
    exact portDisconnected_inverse env s t σ.conn hcoh.1 hcoh.2
  | portVisible port vis =>
    dsimp only [worldRedo] at hredo
    injection hredo with hσ1
    subst hσ1
    dsimp only [Coh] at hcoh
    refine ⟨_, rfl, ?_⟩
    refine ⟨List.Perm.refl _, rfl, rfl, connEquiv_refl _, ?_⟩
    show updF (updF σ.visible port (!vis)) port vis = σ.visible
    rw [updF_updF, hcoh]
    exact updF_self σ.visible port

/-! ### Undo/redo chains over a pushed history -/

theorem OptWEquiv_some_right {o : Option World} {σ1 : World}
    (h : OptWEquiv o (some σ1)) : ∃ σ0, o = some σ0 ∧ WEquiv σ0 σ1 := by
  cases o with
  | none => dsimp only [OptWEquiv] at h
  | some σ0 => exact ⟨σ0, rfl, h⟩

theorem pushSeq_append (env : CmdEnv) (l1 l2 : List Cmd) (σ : World) :
    pushSeq env σ (l1 ++ l2)
      = (pushSeq env σ l1).bind (fun σ1 => pushSeq env σ1 l2) := by
  induction l1 generalizing σ with
  | nil => rfl
  | cons c rest ih =>
    dsimp only [pushSeq, List.cons_append]
    cases worldRedo env c σ with
    | none => rfl
    | some σ1 =>
      rw [Option.some_bind, Option.some_bind]
      exact ih σ1

theorem CohSeq_append (env : CmdEnv) (l1 l2 : List Cmd) (σ σm : World)
    (hcoh : CohSeq env σ (l1 ++ l2)) (hpush : pushSeq env σ l1 = some σm) :
    CohSeq env σm l2 := by
  induction l1 generalizing σ with
  | nil =>
    dsimp only [pushSeq] at hpush
    injection hpush with h
    subst h
    exact hcoh
  | cons c rest ih =>
    dsimp only [CohSeq, List.cons_append] at hcoh
    obtain ⟨h1, h2⟩ := hcoh
    dsimp only [pushSeq] at hpush
    cases hr : worldRedo env c σ with
    | none =>
      rw [hr] at h2
      dsimp only at h2
    | some σ1 =>
      rw [hr] at h2
      dsimp only at h2
      rw [hr, Option.some_bind] at hpush
      exact ih σ1 h2 hpush

theorem pushSeq_nodup (env : CmdEnv) (cs : List Cmd) (σ σ1 : World)
    (h : pushSeq env σ cs = some σ1) (hnd : σ.nodes.Nodup) :
    σ1.nodes.Nodup := by
  induction cs generalizing σ with
  | nil =>
    dsimp only [pushSeq] at h
    injection h with h1
    subst h1
    exact hnd
  | cons c rest ih =>
    dsimp only [pushSeq] at h
    cases hr : worldRedo env c σ with
    | none =>
      rw [hr, Option.none_bind] at h
      exact Option.noConfusion h
    | some σ2 =>
      rw [hr, Option.some_bind] at h
      exact ih σ2 h (worldRedo_nodup env c hr hnd)

/-- Undoing a coherent pushed suffix, last first, walks back to a state
equivalent to the push point. -/
theorem undo_chain (env : CmdEnv) (cs : List Cmd) (σ σn : World)
    (hnd : σ.nodes.Nodup) (hcoh : CohSeq env σ cs)
    (hpush : pushSeq env σ cs = some σn) :
    ∃ τ, undoSeq env σn cs = some τ ∧ WEquiv τ σ := by
  induction cs generalizing σ with
  | nil =>
    dsimp only [pushSeq] at hpush
    injection hpush with h
    subst h
    exact ⟨_, rfl, wEquiv_refl _⟩
  | cons c rest ih =>
    dsimp only [CohSeq] at hcoh
    obtain ⟨h1, h2⟩ := hcoh
    dsimp only [pushSeq] at hpush
    cases hr : worldRedo env c σ with
    | none =>
      rw [hr] at h2
      dsimp only at h2
    | some σ1 =>
      rw [hr] at h2
      dsimp only at h2
      rw [hr, Option.some_bind] at hpush
      have hnd1 := worldRedo_nodup env c hr hnd
      obtain ⟨τ1, hu1, he1⟩ := ih σ1 hnd1 h2 hpush
      obtain ⟨τ0, hu0, he0⟩ := undo_of_redo env c σ hnd h1 hr
      have hcong := worldUndo_congr env c he1
      rw [hu0] at hcong
      obtain ⟨τ, hτ, heτ⟩ := OptWEquiv_some_right hcong
      refine ⟨τ, ?_, wEquiv_trans heτ he0⟩
      dsimp only [undoSeq]
      rw [hu1, Option.some_bind]
      exact hτ

/-- Redoing the suffix from any state equivalent to the push point
re-reaches a state equivalent to the pushed end state. -/
theorem redo_chain (env : CmdEnv) (cs : List Cmd) (σ σn τ : World)
    (he : WEquiv τ σ) (hpush : pushSeq env σ cs = some σn) :
    ∃ τn, redoSeq env τ cs = some τn ∧ WEquiv τn σn := by
  induction cs generalizing σ τ with
  | nil =>
    dsimp only [pushSeq] at hpush
    injection hpush with h
    subst h
    exact ⟨τ, rfl, he⟩
  | cons c rest ih =>
    dsimp only [pushSeq] at hpush
    cases hr : worldRedo env c σ with
    | none =>
      rw [hr, Option.none_bind] at hpush
      exact Option.noConfusion hpush
    | some σ1 =>
      rw [hr, Option.some_bind] at hpush
      have hcong := worldRedo_congr env c he
      rw [hr] at hcong
      obtain ⟨τ1, hτ1, he1⟩ := OptWEquiv_some_right hcong
      obtain ⟨τn, hτn, hen⟩ := ih σ1 τ1 he1 hpush
      refine ⟨τn, ?_, hen⟩
      dsimp only [redoSeq]
      rw [hτ1, Option.some_bind]
      exact hτn

/-- C1 (amended): for any coherent pushed sequence (with duplicate-free
node ids) and any `k` within history bounds, undoing the last `k`
commands in reverse push order and then redoing them in push order
succeeds and restores the model state up to `WEquiv`: the node-id
multiset, positions, properties and visibility exactly, and every
connection set as a multiset of names per key — but not bit-identically
(order inside connection lists is not restored; see the counterexample). -/
theorem undo_redo_round_trip (env : CmdEnv) (cs : List Cmd) (k : Nat)
    (σ0 σn : World) (hk : k ≤ cs.length) (hnd : σ0.nodes.Nodup)
    (hcoh : CohSeq env σ0 cs) (hpush : pushSeq env σ0 cs = some σn) :
    ∃ τ τ1, undoSeq env σn (cs.drop (cs.length - k)) = some τ ∧
      redoSeq env τ (cs.drop (cs.length - k)) = some τ1 ∧ WEquiv τ1 σn := by
  have hsplit : cs.take (cs.length - k) ++ cs.drop (cs.length - k) = cs :=
    List.take_append_drop _ cs
  rw [← hsplit, pushSeq_append] at hpush
  rw [← hsplit] at hcoh
  cases hm : pushSeq env σ0 (cs.take (cs.length - k)) with
  | none =>
    rw [hm, Option.none_bind] at hpush
    exact Option.noConfusion hpush
  | some σm =>
    rw [hm, Option.some_bind] at hpush
    have hndm := pushSeq_nodup env (cs.take (cs.length - k)) σ0 σm hm hnd
    have hcohm := CohSeq_append env (cs.take (cs.length - k))
      (cs.drop (cs.length - k)) σ0 σm hcoh hm
    obtain ⟨τ, hu, he⟩ := undo_chain env (cs.drop (cs.length - k)) σm σn
      hndm hcohm hpush
    obtain ⟨τ1, hr, he1⟩ := redo_chain env (cs.drop (cs.length - k)) σm σn τ
      he hpush
    exact ⟨τ, τ1, hu, hr, he1⟩

/-- Port environment for the round-trip witness and counterexample:
port 0 is node 10's output "o", ports 1 and 2 are node 20's inputs
"a" and "b". -/
def envC : CmdEnv :=
  ⟨fun p => if p = 0 then 10 else 20,
   fun p => if p = 0 then "o" else if p = 1 then "a" else "b"⟩

/-- The empty world. -/
def wldC : World :=
  ⟨[], fun _ => (0, 0), fun _ _ => none, fun _ => [], fun _ => false⟩

/-- End state of pushing one `portConnected 0 1` on the empty world. -/
def wldC1 : World :=
  { wldC with conn := portConnectedCmdRedo (cmdPortEnv envC) 0 1 wldC.conn }

/-- Witness: the round-trip law applied to a concrete one-command
history. -/
theorem undo_redo_round_trip_witness :
    (1 ≤ ([Cmd.portConnected 0 1] : List Cmd).length ∧
      wldC.nodes.Nodup ∧ CohSeq envC wldC [Cmd.portConnected 0 1] ∧
      pushSeq envC wldC [Cmd.portConnected 0 1] = some wldC1) ∧
    (∃ τ τ1,
      undoSeq envC wldC1 (([Cmd.portConnected 0 1] : List Cmd).drop
        (([Cmd.portConnected 0 1] : List Cmd).length - 1)) = some τ ∧
      redoSeq envC τ (([Cmd.portConnected 0 1] : List Cmd).drop
        (([Cmd.portConnected 0 1] : List Cmd).length - 1)) = some τ1 ∧
      WEquiv τ1 wldC1) :=
  ⟨⟨Nat.le_refl 1, List.nodup_nil, ⟨trivial, trivial⟩, rfl⟩,
    undo_redo_round_trip envC [Cmd.portConnected 0 1] 1 wldC wldC1
      (Nat.le_refl 1) List.nodup_nil ⟨trivial, trivial⟩ rfl⟩

/-- The push history for the exactness counterexample: connect ports
0–1, 0–2, then 0–1 again. -/
def csC : List Cmd :=
  [Cmd.portConnected 0 1, Cmd.portConnected 0 2, Cmd.portConnected 0 1]

/-- Counterexample to C1 as stated: after pushing `csC` on the empty
world, undoing the last command and redoing it leaves port 0's
connection list under node 20 as a different list (`["b","a","a"]`
instead of `["a","b","a"]`): the state is restored only up to
permutation, not bit-identically. -/
theorem undo_redo_not_exact :
    ∃ σ3 τ τ1, pushSeq envC wldC csC = some σ3 ∧
      undoSeq envC σ3 (csC.drop 2) = some τ ∧
      redoSeq envC τ (csC.drop 2) = some τ1 ∧
      lookupConnD (τ1.conn 0) 20 ≠ lookupConnD (σ3.conn 0) 20 := by
  refine ⟨_, _, _, rfl, rfl, rfl, ?_⟩
  decide

end NG
